import Mathlib

/-!
The cmtp-responder sequence container (`src/util/mtp_list.c`) and device-info packing.

A shallow embedding of the singly linked list of `mtp_list.c` over an explicit
typed memory, and of the device-info size/pack contract declared in
`include/entity/mtp_device.h`.

Pointers are addresses (`Nat`), `NULL` is address `0`.  Every C function takes the
memory and returns the memory it leaves behind; a dereference of `NULL` or of an
address that holds no object is reported as a `Fault` (undefined behaviour in C).
-/

namespace MtpList

/-- A pointer: an address, `0` being `NULL`. Stored values (`void *`) are pointers too. -/
abbrev Ptr := Nat

/-- A list node, `struct slist_node_t { void *value; struct slist_node_t *link; }`. -/
structure slist_node_t where
  value : Ptr
  link : Ptr
deriving DecidableEq, Repr

/-- Modelled from the spec: `slist_t` is declared in `mtp_list.h`, which is not among the
sources; the spec gives it a head reference, a tail reference and an element count. The
fields carry the names `mtp_list.c` uses (`end` is written `end_`), and the count is an
unbounded integer, so that `+= 1` and `-= 1` are exact. -/
structure slist_t where
  start : Ptr
  end_ : Ptr
  nnodes : Int
deriving DecidableEq, Repr

/-- An iterator, `struct slist_iterator { slist_node_t *node_ptr; }` (as `mtp_list.c`
uses it). -/
structure slist_iterator where
  node_ptr : Ptr
deriving DecidableEq, Repr

/-- Ways in which a run of the C code leaves defined behaviour (or the model its fuel). -/
inductive Fault where
  | nullDeref
  | wildDeref
  | outOfFuel
deriving DecidableEq, Repr

/-- The memory: one partial map per object type (objects of different types never overlap).
`none` at an address means that no object of that type lives there. -/
structure Mem where
  lists : Ptr → Option slist_t
  nodes : Ptr → Option slist_node_t
  iters : Ptr → Option slist_iterator

/-- Read through a pointer, `p->...`. -/
def load {α : Type} (cells : Ptr → Option α) (p : Ptr) : Except Fault α :=
  if p = 0 then .error .nullDeref
  else match cells p with
    | some x => .ok x
    | none => .error .wildDeref

/-- Write through a pointer, `*p = x`. -/
def store {α : Type} (cells : Ptr → Option α) (p : Ptr) (x : α) : Ptr → Option α :=
  fun q => if q = p then some x else cells q

/-- The function `void _util_init_list(slist_t *l_ptr)`. -/
def _util_init_list (m : Mem) (l_ptr : Ptr) : Except Fault Mem :=
  if l_ptr = 0 then .ok m
  else do
    let l ← load m.lists l_ptr
    let l := { l with start := 0 }
    let l := { l with end_ := 0 }
    let l := { l with nnodes := 0 }
    .ok { m with lists := store m.lists l_ptr l }

/-- The function `mtp_bool _util_add_node(slist_t *l_ptr, void *data)`; `node` is what `g_malloc`
returns for the new node (`0` when the allocation fails). -/
def _util_add_node (m : Mem) (l_ptr data node : Ptr) : Except Fault (Bool × Mem) :=
  if l_ptr = 0 then .ok (false, m)
  else if node = 0 then .ok (false, m)
  else do
    -- node->value = data; node->link = NULL;
    let m := { m with nodes := store m.nodes node ⟨data, 0⟩ }
    let l ← load m.lists l_ptr
    let m ←
      if l.start = 0 then
        -- l_ptr->start = node;
        (.ok { m with lists := store m.lists l_ptr { l with start := node } } : Except Fault Mem)
      else do
        -- l_ptr->end->link = node;
        let e ← load m.nodes l.end_
        .ok { m with nodes := store m.nodes l.end_ { e with link := node } }
    -- l_ptr->end = node;
    let l ← load m.lists l_ptr
    let m := { m with lists := store m.lists l_ptr { l with end_ := node } }
    -- l_ptr->nnodes += 1;
    let l ← load m.lists l_ptr
    let m := { m with lists := store m.lists l_ptr { l with nnodes := l.nnodes + 1 } }
    .ok (true, m)

/-- The function `static slist_node_t *__util_del_first_node(slist_t *l_ptr)`. -/
def __util_del_first_node (m : Mem) (l_ptr : Ptr) : Except Fault (Ptr × Mem) := do
  -- temp = l_ptr->start;
  let l ← load m.lists l_ptr
  let temp := l.start
  -- l_ptr->nnodes -= 1;
  let m := { m with lists := store m.lists l_ptr { l with nnodes := l.nnodes - 1 } }
  -- l_ptr->start = temp->link;
  let t ← load m.nodes temp
  let l ← load m.lists l_ptr
  let m := { m with lists := store m.lists l_ptr { l with start := t.link } }
  -- if (temp == l_ptr->end) l_ptr->end = NULL;
  let l ← load m.lists l_ptr
  let m := if temp = l.end_ then
      { m with lists := store m.lists l_ptr { l with end_ := 0 } }
    else m
  .ok (temp, m)

/-- The `while (nptr->link)` loop of `_util_delete_node`: returns the value of `nptr` when
the loop is left. One unit of fuel per evaluation of the loop condition. -/
def delete_scan (nodes : Ptr → Option slist_node_t) (data : Ptr) :
    Nat → Ptr → Except Fault Ptr
  | 0, _ => .error .outOfFuel
  | fuel + 1, nptr => do
    let n ← load nodes nptr
    if n.link = 0 then .ok nptr
    else do
      let nx ← load nodes n.link
      -- if (nptr->link->value == data) break;
      if nx.value = data then .ok nptr
      -- nptr = nptr->link;
      else delete_scan nodes data fuel n.link

/-- The function `slist_node_t* _util_delete_node(slist_t *l_ptr, void *data)`; `fuel` bounds the
number of times the loop condition is evaluated. -/
def _util_delete_node (fuel : Nat) (m : Mem) (l_ptr data : Ptr) : Except Fault (Ptr × Mem) :=
  if data = 0 then .ok (0, m)
  else if l_ptr = 0 then .ok (0, m)
  else do
    let l ← load m.lists l_ptr
    if l.start = 0 then .ok (0, m)
    else do
      let nptr := l.start
      let n ← load m.nodes nptr
      if n.value = data then __util_del_first_node m l_ptr
      else do
        let nptr ← delete_scan m.nodes data fuel nptr
        let n ← load m.nodes nptr
        -- retvm_if(!nptr->link, NULL, ...)
        if n.link = 0 then .ok (0, m)
        else do
          -- temp = nptr->link;
          let temp := n.link
          -- nptr->link = nptr->link->link;
          let t ← load m.nodes n.link
          let m := { m with nodes := store m.nodes nptr { n with link := t.link } }
          -- l_ptr->nnodes -= 1;
          let l ← load m.lists l_ptr
          let m := { m with lists := store m.lists l_ptr { l with nnodes := l.nnodes - 1 } }
          -- if (temp == l_ptr->end) l_ptr->end = nptr;
          let l ← load m.lists l_ptr
          let m := if temp = l.end_ then
              { m with lists := store m.lists l_ptr { l with end_ := nptr } }
            else m
          .ok (temp, m)

/-- The function `slist_iterator* _util_init_list_iterator(slist_t *l_ptr)`; `temp` is what
`g_malloc`
returns for the iterator (`0` when the allocation fails). -/
def _util_init_list_iterator (m : Mem) (l_ptr temp : Ptr) : Except Fault (Ptr × Mem) :=
  if l_ptr = 0 then .ok (0, m)
  else do
    let l ← load m.lists l_ptr
    if l.start = 0 then .ok (0, m)
    else if temp = 0 then .ok (0, m)
    else
      -- temp->node_ptr = l_ptr->start;
      .ok (temp, { m with iters := store m.iters temp ⟨l.start⟩ })

/-- The function `void* _util_get_list_next(slist_iterator *iter)`. -/
def _util_get_list_next (m : Mem) (iter : Ptr) : Except Fault (Ptr × Mem) :=
  if iter = 0 then .ok (0, m)
  else do
    -- temp = iter->node_ptr;
    let it ← load m.iters iter
    let temp := it.node_ptr
    -- iter->node_ptr = iter->node_ptr->link;
    let n ← load m.nodes it.node_ptr
    let m := { m with iters := store m.iters iter { it with node_ptr := n.link } }
    -- return temp->value;
    let t ← load m.nodes temp
    .ok (t.value, m)

/-! ## Representation of a list in memory -/

/-- Address of the first cell of a sequence of `(address, value)` cells, `NULL` if none. -/
def headAddr : List (Ptr × Ptr) → Ptr
  | [] => 0
  | c :: _ => c.1

/-- Address of the last cell, `NULL` if none. -/
def lastAddr : List (Ptr × Ptr) → Ptr
  | [] => 0
  | [c] => c.1
  | _ :: c :: cs => lastAddr (c :: cs)

/-- The cells `cs` are laid out in `nodes` as a `NULL`-terminated chain: each cell sits at
its non-`NULL` address, holds its value, and links to the next cell (`NULL` for the last). -/
def Cells (nodes : Ptr → Option slist_node_t) : List (Ptr × Ptr) → Prop
  | [] => True
  | c :: cs => c.1 ≠ 0 ∧ nodes c.1 = some ⟨c.2, headAddr cs⟩ ∧ Cells nodes cs

instance Cells.instDecidable (nodes : Ptr → Option slist_node_t) :
    (cs : List (Ptr × Ptr)) → Decidable (Cells nodes cs)
  | [] => isTrue trivial
  | c :: cs =>
    have := Cells.instDecidable nodes cs
    inferInstanceAs (Decidable (c.1 ≠ 0 ∧ nodes c.1 = some ⟨c.2, headAddr cs⟩ ∧ Cells nodes cs))

/-- Well-formed list: `l_ptr` points to a list header whose `start` heads the chain of
cells `cs`, whose `end_` is the last cell of the chain (`NULL` when there is none) and
whose `nnodes` is the number of cells. -/
def WF (m : Mem) (l_ptr : Ptr) (cs : List (Ptr × Ptr)) : Prop :=
  l_ptr ≠ 0 ∧
  ∃ l, m.lists l_ptr = some l ∧ l.start = headAddr cs ∧ Cells m.nodes cs ∧
    l.end_ = lastAddr cs ∧ l.nnodes = cs.length

/-- The values stored in the list, head to tail. -/
def values (cs : List (Ptr × Ptr)) : List Ptr := cs.map Prod.snd

/-- The node addresses of the list, head to tail. -/
def addrs (cs : List (Ptr × Ptr)) : List Ptr := cs.map Prod.fst

/-- Memories reached from a `_util_init_list` call by successful `_util_add_node` calls on
the same `l_ptr`; the index lists the values passed, in call order. Each `g_malloc` result
`node` is an address at which no node lives yet. -/
inductive Built (l_ptr : Ptr) : List Ptr → Mem → Prop
  | init (m0 m : Mem) : _util_init_list m0 l_ptr = .ok m → Built l_ptr [] m
  | add (vs : List Ptr) (m : Mem) (data node : Ptr) (m2 : Mem) :
      Built l_ptr vs m → m.nodes node = none →
      _util_add_node m l_ptr data node = .ok (true, m2) → Built l_ptr (vs ++ [data]) m2

/-- The calls `_util_get_list_next(iter)` made `k` times in a row: the values returned, in
call order, and the memory left. -/
def get_list_next_n (iter : Ptr) : Nat → Mem → Except Fault (List Ptr × Mem)
  | 0, m => .ok ([], m)
  | k + 1, m => do
    let (v, m) ← _util_get_list_next m iter
    let (vs, m) ← get_list_next_n iter k m
    .ok (v :: vs, m)

/-- Reachability: `q` is reached from `p` by following `link` through nodes, zero or more
times. -/
inductive Reach (nodes : Ptr → Option slist_node_t) : Ptr → Ptr → Prop
  | here (p : Ptr) : Reach nodes p p
  | next (p q : Ptr) (n : slist_node_t) :
      p ≠ 0 → nodes p = some n → Reach nodes n.link q → Reach nodes p q

/-- The container invariant, as the specification words it, for the list header at `l_ptr`:
`nnodes` is the number of nodes reachable from `start`; `start` is `NULL` exactly when
`nnodes` is `0`, and then `end` is `NULL` too; otherwise `end` is a node reachable from
`start` whose `link` is `NULL`. -/
def Inv (m : Mem) (l_ptr : Ptr) : Prop :=
  l_ptr ≠ 0 ∧ ∃ l, m.lists l_ptr = some l ∧
    (∃ s : Finset Ptr, (∀ a, a ∈ s ↔ a ≠ 0 ∧ (m.nodes a).isSome ∧ Reach m.nodes l.start a) ∧
      l.nnodes = s.card) ∧
    (l.start = 0 ↔ l.nnodes = 0) ∧
    (l.start = 0 → l.end_ = 0) ∧
    (l.start ≠ 0 → Reach m.nodes l.start l.end_ ∧
      ∃ e, l.end_ ≠ 0 ∧ m.nodes l.end_ = some e ∧ e.link = 0)

/-- A memory holding one list header at address `1`, not yet initialised, and no node. -/
def exRaw : Mem :=
  { lists := fun p => if p = 1 then some ⟨7, 7, 7⟩ else none
    nodes := fun _ => none
    iters := fun _ => none }

/-- The header at address `1` describes the three-node list `100, 200, 100` whose nodes sit
at `10, 20, 30`. -/
def exMem : Mem :=
  { lists := fun p => if p = 1 then some ⟨10, 30, 3⟩ else none
    nodes := fun p =>
      if p = 10 then some ⟨100, 20⟩
      else if p = 20 then some ⟨200, 30⟩
      else if p = 30 then some ⟨100, 0⟩
      else none
    iters := fun _ => none }

/-- The cells of the list in `exMem`. -/
def exCells : List (Ptr × Ptr) := [(10, 100), (20, 200), (30, 100)]

/-- The memory a run leaves behind, `exRaw` if it faulted. -/
def memOf {α : Type} (r : Except Fault (α × Mem)) : Mem :=
  match r with
  | .ok (_, m) => m
  | .error _ => exRaw

/-- The memory `exRaw` after `_util_init_list` on the header at address `1`. -/
def exInit : Mem :=
  match _util_init_list exRaw 1 with
  | .ok m => m
  | .error _ => exRaw

/-- The list of `exInit` after appending the value `NULL` in a node allocated at `10`. -/
def exNull : Mem := memOf (_util_add_node exInit 1 0 10)

/-- The list of `exInit` after appending `100` (node at `10`) and then `200` (node at `20`). -/
def exTwo : Mem := memOf (_util_add_node (memOf (_util_add_node exInit 1 100 10)) 1 200 20)

/-- The list of `exInit` after appending `100` in a node allocated at `10`. -/
def exOne : Mem := memOf (_util_add_node exInit 1 100 10)

end MtpList

namespace MtpDevice

/-- Modelled from the spec: `ptp_string_t` is declared in a header that is not among the
sources; the spec calls these fields text in the length-prefixed representation of the
protocol.
The list holds the characters (16-bit code units) without the terminating null. -/
abbrev ptp_string_t := List Nat

/-- The structure `device_info_t` of `mtp_device.h`, field for field. A `mtp_uint16 *` array is the ordered
sequence of its 16-bit codes. -/
structure device_info_t where
  std_version : Nat
  vendor_extn_id : Nat
  vendor_extn_version : Nat
  vendor_extn_desc : ptp_string_t
  functional_mode : Nat
  ops_supported : List Nat
  events_supported : List Nat
  device_prop_supported : List Nat
  capture_fmts : List Nat
  object_fmts : List Nat
  manufacturer : ptp_string_t
  model : ptp_string_t
  device_version : ptp_string_t
  serial_no : ptp_string_t
deriving DecidableEq, Repr

/-- A 16-bit unsigned field on the wire: two bytes, little-endian. -/
def pack16 (x : Nat) : List Nat := [x % 256, x / 256 % 256]

/-- A 32-bit unsigned field on the wire: four bytes, little-endian. -/
def pack32 (x : Nat) : List Nat :=
  [x % 256, x / 256 % 256, x / 65536 % 256, x / 16777216 % 256]

/-- A run of 16-bit codes on the wire, in order. -/
def pack16s : List Nat → List Nat
  | [] => []
  | x :: xs => pack16 x ++ pack16s xs

/-- Modelled from the spec: the wire form of a text field, which the sources do not contain:
one length unit (a byte) counting the characters including a terminating null, followed by
that many 16-bit code units; the empty string is a zero length unit and nothing else. -/
def pack_string (s : ptp_string_t) : List Nat :=
  if s = [] then [0] else (s.length + 1) % 256 :: pack16s (s ++ [0])

/-- Modelled from the spec: the encoded length of a text field, which the sources do not
contain. -/
def string_size (s : ptp_string_t) : Nat :=
  if s = [] then 1 else 1 + 2 * (s.length + 1)

/-- Modelled from the spec: the wire form of a code list, which the sources do not contain:
a 32-bit element count followed by that many 16-bit codes. -/
def pack_array (a : List Nat) : List Nat := pack32 a.length ++ pack16s a

/-- Modelled from the spec: the encoded length of a code list, which the sources do not
contain. -/
def array_size (a : List Nat) : Nat := 4 + 2 * a.length

/-- Modelled from the spec: the body of `_get_device_info_size` is not among the sources
(`mtp_device.h` only declares it); the spec has it return the exact number of bytes of the
dataset: the fixed fields plus the encoded length of each text field and each code list. -/
def _get_device_info_size (info : device_info_t) : Nat :=
  2 + 4 + 2 + string_size info.vendor_extn_desc + 2 +
    array_size info.ops_supported + array_size info.events_supported +
    array_size info.device_prop_supported + array_size info.capture_fmts +
    array_size info.object_fmts +
    string_size info.manufacturer + string_size info.model +
    string_size info.device_version + string_size info.serial_no

/-- Modelled from the spec: the device-info dataset in the field order of the table in the spec,
which the sources do not contain. -/
def dataset (info : device_info_t) : List Nat :=
  pack16 info.std_version ++ pack32 info.vendor_extn_id ++ pack16 info.vendor_extn_version ++
    pack_string info.vendor_extn_desc ++ pack16 info.functional_mode ++
    pack_array info.ops_supported ++ pack_array info.events_supported ++
    pack_array info.device_prop_supported ++ pack_array info.capture_fmts ++
    pack_array info.object_fmts ++
    pack_string info.manufacturer ++ pack_string info.model ++
    pack_string info.device_version ++ pack_string info.serial_no

/-- Modelled from the spec: the body of `_pack_device_info` is not among the sources
(`mtp_device.h` only declares it); the spec has it fail without writing when the capacity is
below the required size, and otherwise write the dataset at the start of the buffer and
return the number of bytes written. The buffer is the list of its bytes; failure is the
return value `0` (no useful data in the buffer). -/
def _pack_device_info (info : device_info_t) (buf : List Nat) (buf_sz : Nat) : Nat × List Nat :=
  if buf_sz < _get_device_info_size info then (0, buf)
  else
    let data := dataset info
    (data.length, data ++ buf.drop data.length)

/-- A small descriptor: standard version `0x64`, vendor extension `6`, some codes and
strings. -/
def exInfo : device_info_t :=
  { std_version := 100
    vendor_extn_id := 6
    vendor_extn_version := 100
    vendor_extn_desc := []
    functional_mode := 0
    ops_supported := [4097, 4098]
    events_supported := []
    device_prop_supported := [20481]
    capture_fmts := []
    object_fmts := [12288, 12289]
    manufacturer := [67]
    model := [77, 84, 80]
    device_version := []
    serial_no := [49] }

/-- The constant `MAX_NUM_DEVICE_STORES` of `mtp_device.h`. -/
def MAX_NUM_DEVICE_STORES : Nat := 1

/-- The constant `MTP_STANDARD_VERSION` of `mtp_device.h`. -/
def MTP_STANDARD_VERSION : Nat := 0x64

/-- The constant `MTP_VENDOR_EXTN_ID` of `mtp_device.h`. -/
def MTP_VENDOR_EXTN_ID : Nat := 0x06

/-- The constant `MTP_VENDOR_EXTN_VERSION` of `mtp_device.h`. -/
def MTP_VENDOR_EXTN_VERSION : Nat := 0x64

/-- The enumeration `device_status_t` of `mtp_device.h`. -/
inductive device_status_t where
  | DEVICE_STATUSOK
  | DEVICE_DEVICEERROR
deriving DecidableEq, Repr

/-- The numeric value of a `device_status_t` constant. -/
def device_status_t.toNat : device_status_t → Nat
  | .DEVICE_STATUSOK => 0
  | .DEVICE_DEVICEERROR => 4

/-- The enumeration `device_phase_t` of `mtp_device.h`. -/
inductive device_phase_t where
  | DEVICE_PHASE_NOTREADY
  | DEVICE_PHASE_IDLE
  | DEVICE_PHASE_DATAIN
  | DEVICE_PHASE_DATAOUT
  | DEVICE_PHASE_RESPONSE
deriving DecidableEq, Repr

/-- The numeric value of a `device_phase_t` constant. -/
def device_phase_t.toNat : device_phase_t → Nat
  | .DEVICE_PHASE_NOTREADY => 0
  | .DEVICE_PHASE_IDLE => 1
  | .DEVICE_PHASE_DATAIN => 3
  | .DEVICE_PHASE_DATAOUT => 4
  | .DEVICE_PHASE_RESPONSE => 5

/-- Modelled from the spec: `mtp_store_t` is declared in `mtp_store.h`, which is not among
the sources; the spec identifies a store by a 32-bit store id and lets it expose the parent
handle of its root objects. The objects of a store play no part here. -/
structure mtp_store_t where
  store_id : Nat
  root_parent : Nat
deriving DecidableEq, Repr

/-- The structure `mtp_device_t` of `mtp_device.h`, field for field. `store_list` is the
sequence of attached stores in attachment order, `is_mounted` the array of
`MAX_NUM_DEVICE_STORES` flags. -/
structure mtp_device_t where
  status : device_status_t
  phase : device_phase_t
  device_info : device_info_t
  store_list : List mtp_store_t
  num_stores : Nat
  default_store_id : Nat
  default_hparent : Nat
  is_mounted : Fin MAX_NUM_DEVICE_STORES → Bool

/-- Modelled from the spec: the static configuration from which the device-info descriptor
is populated is not among the sources; it supplies every field that `mtp_device.h` does not
fix by a constant. -/
structure static_config where
  vendor_extn_desc : ptp_string_t
  functional_mode : Nat
  ops_supported : List Nat
  events_supported : List Nat
  device_prop_supported : List Nat
  capture_fmts : List Nat
  object_fmts : List Nat
  manufacturer : ptp_string_t
  model : ptp_string_t
  device_version : ptp_string_t
  serial_no : ptp_string_t
deriving DecidableEq, Repr

/-- Modelled from the spec: the construction of the device-info descriptor from the static
configuration is not among the sources; the version fields are the constants of
`mtp_device.h`, the other fields come from the configuration. -/
def init_device_info (cfg : static_config) : device_info_t :=
  { std_version := MTP_STANDARD_VERSION
    vendor_extn_id := MTP_VENDOR_EXTN_ID
    vendor_extn_version := MTP_VENDOR_EXTN_VERSION
    vendor_extn_desc := cfg.vendor_extn_desc
    functional_mode := cfg.functional_mode
    ops_supported := cfg.ops_supported
    events_supported := cfg.events_supported
    device_prop_supported := cfg.device_prop_supported
    capture_fmts := cfg.capture_fmts
    object_fmts := cfg.object_fmts
    manufacturer := cfg.manufacturer
    model := cfg.model
    device_version := cfg.device_version
    serial_no := cfg.serial_no }

/-- Modelled from the spec: the body of `_reset_mtp_device` is not among the sources
(`mtp_device.h` only declares it, as resetting the device state to idle); the spec has it set
the phase to idle and the status to ok, build the device-info descriptor again from the
static configuration, and clear the store list back to empty so that stores must be
installed again: no store is counted and every slot is free afterwards. The spec does not
mention the default ids, which are kept. -/
def _reset_mtp_device (cfg : static_config) (d : mtp_device_t) : mtp_device_t :=
  { d with
    status := .DEVICE_STATUSOK
    phase := .DEVICE_PHASE_IDLE
    device_info := init_device_info cfg
    store_list := []
    num_stores := 0
    is_mounted := fun _ => false }

/-- The first store slot whose mount flag is clear, if there is one. -/
def free_slot (d : mtp_device_t) : Option (Fin MAX_NUM_DEVICE_STORES) :=
  (List.finRange MAX_NUM_DEVICE_STORES).find? (fun i => !d.is_mounted i)

/-- Modelled from the spec: the body of `_device_install_storage` is not among the sources
(`mtp_device.h` only declares it); the spec has it attach one volume into the next free
slot: it fails when no slot is free or when the backing store fails to initialise (`vol` is
what the storage collaborator returns), and otherwise assigns the store id `id`, appends the
store to the store list, counts it in `num_stores` (an `mtp_uchar`), sets the mount flag of
the slot and, for the first store attached, makes it the default store with its root as the
default parent. -/
def _device_install_storage (d : mtp_device_t) (vol : Option mtp_store_t) (id : Nat) :
    Bool × mtp_device_t :=
  match free_slot d with
  | none => (false, d)
  | some i =>
    match vol with
    | none => (false, d)
    | some st =>
      (true,
        { d with
          store_list := d.store_list ++ [{ st with store_id := id }]
          num_stores := (d.num_stores + 1) % 256
          default_store_id := if d.store_list = [] then id else d.default_store_id
          default_hparent := if d.store_list = [] then st.root_parent else d.default_hparent
          is_mounted := fun j => if j = i then true else d.is_mounted j })

/-- The number of store slots whose mount flag is set. -/
def mounted_count (d : mtp_device_t) : Nat :=
  ((List.finRange MAX_NUM_DEVICE_STORES).filter (fun i => d.is_mounted i)).length

/-- The store bookkeeping of a device agrees: `num_stores` counts the stores of the store
list, and there is one mounted slot per attached store. -/
def StoresConsistent (d : mtp_device_t) : Prop :=
  d.num_stores = d.store_list.length ∧ d.store_list.length = mounted_count d

/-- A static configuration with a few codes and strings. -/
def exConfig : static_config :=
  { vendor_extn_desc := []
    functional_mode := 0
    ops_supported := [4097, 4098]
    events_supported := []
    device_prop_supported := [20481]
    capture_fmts := []
    object_fmts := [12288]
    manufacturer := [67]
    model := [77]
    device_version := []
    serial_no := [49] }

/-- A device in fatal error, not ready, with its one store slot occupied by store `65537`. -/
def exDevice : mtp_device_t :=
  { status := .DEVICE_DEVICEERROR
    phase := .DEVICE_PHASE_NOTREADY
    device_info := exInfo
    store_list := [⟨65537, 0⟩]
    num_stores := 1
    default_store_id := 65537
    default_hparent := 0
    is_mounted := fun _ => true }

end MtpDevice

namespace MtpList

/-! ## Basic facts about memory access and chains -/

@[simp] theorem store_same {α : Type} (cells : Ptr → Option α) (p : Ptr) (x : α) :
    store cells p x p = some x := by
  simp [store]

theorem store_other {α : Type} (cells : Ptr → Option α) (p q : Ptr) (x : α) (h : q ≠ p) :
    store cells p x q = cells q := by
  simp [store, h]

theorem load_ok {α : Type} (cells : Ptr → Option α) (p : Ptr) (x : α)
    (hp : p ≠ 0) (h : cells p = some x) : load cells p = .ok x := by
  simp [load, hp, h]

theorem headAddr_append_cons (xs : List (Ptr × Ptr)) (q : Ptr × Ptr) (ys zs : List (Ptr × Ptr)) :
    headAddr (xs ++ q :: ys) = headAddr (xs ++ q :: zs) := by
  cases xs <;> rfl

theorem lastAddr_append_cons (xs : List (Ptr × Ptr)) (q : Ptr × Ptr) (ys : List (Ptr × Ptr)) :
    lastAddr (xs ++ q :: ys) = lastAddr (q :: ys) := by
  induction xs with
  | nil => rfl
  | cons x xs ih =>
    cases xs with
    | nil => simp [lastAddr]
    | cons y ys' => simpa [lastAddr] using ih

theorem lastAddr_concat (xs : List (Ptr × Ptr)) (q : Ptr × Ptr) :
    lastAddr (xs ++ [q]) = q.1 := by
  rw [lastAddr_append_cons]; rfl

theorem lastAddr_mem_addrs (c : Ptr × Ptr) (cs : List (Ptr × Ptr)) :
    lastAddr (c :: cs) ∈ addrs (c :: cs) := by
  induction cs generalizing c with
  | nil => simp [lastAddr, addrs]
  | cons d ds ih =>
    have := ih d
    simp only [lastAddr, addrs, List.map_cons, List.mem_cons] at this ⊢
    exact Or.inr this

theorem cells_append_right (nodes : Ptr → Option slist_node_t) (xs ys : List (Ptr × Ptr))
    (h : Cells nodes (xs ++ ys)) : Cells nodes ys := by
  induction xs with
  | nil => simpa using h
  | cons x xs ih => exact ih h.2.2

theorem cells_headAddr_eq_zero (nodes : Ptr → Option slist_node_t) (cs : List (Ptr × Ptr))
    (h : Cells nodes cs) : headAddr cs = 0 ↔ cs = [] := by
  cases cs with
  | nil => simp [headAddr]
  | cons c cs => simpa [headAddr] using h.1

/-- A chain is determined by its first address. -/
theorem cells_unique (nodes : Ptr → Option slist_node_t) :
    ∀ (cs ds : List (Ptr × Ptr)), Cells nodes cs → Cells nodes ds →
      headAddr cs = headAddr ds → cs = ds
  | [], ds, _, hd, he => ((cells_headAddr_eq_zero nodes ds hd).1 he.symm).symm
  | c :: cs, [], hc, _, he => absurd he hc.1
  | c :: cs, d :: ds, hc, hd, he => by
    have he' : c.1 = d.1 := he
    have h1 := hc.2.1
    have h2 := hd.2.1
    rw [he', h2] at h1
    simp only [Option.some.injEq, slist_node_t.mk.injEq] at h1
    have ht := cells_unique nodes cs ds hc.2.2 hd.2.2 h1.2.symm
    have : c = d := Prod.ext he' h1.1.symm
    rw [this, ht]

/-- The nodes of a chain sit at pairwise different addresses. -/
theorem cells_nodup (nodes : Ptr → Option slist_node_t) :
    ∀ (cs : List (Ptr × Ptr)), Cells nodes cs → (addrs cs).Nodup
  | [], _ => by simp [addrs]
  | c :: cs, h => by
    have ih := cells_nodup nodes cs h.2.2
    simp only [addrs, List.map_cons, List.nodup_cons]
    refine ⟨?_, ih⟩
    intro hmem
    obtain ⟨d, hd, hdc⟩ := List.mem_map.1 hmem
    obtain ⟨pre, post, hsplit⟩ := List.append_of_mem hd
    have hsuf : Cells nodes (d :: post) :=
      cells_append_right nodes pre (d :: post) (hsplit ▸ h.2.2)
    have heq : d :: post = c :: cs := cells_unique nodes _ _ hsuf h hdc
    have hlen := congrArg List.length heq
    have hlen2 := congrArg List.length hsplit
    simp at hlen hlen2
    omega

/-- Writing at an address outside a chain leaves the chain intact. -/
theorem cells_frame (nodes nodes2 : Ptr → Option slist_node_t) :
    ∀ (cs : List (Ptr × Ptr)), (∀ a ∈ addrs cs, nodes2 a = nodes a) →
      Cells nodes cs → Cells nodes2 cs
  | [], _, _ => trivial
  | c :: cs, hag, h => by
    refine ⟨h.1, ?_, cells_frame nodes nodes2 cs (fun a ha => hag a ?_) h.2.2⟩
    · rw [hag c.1 (by simp [addrs])]; exact h.2.1
    · simp only [addrs, List.map_cons, List.mem_cons]; exact Or.inr ha

/-- Replacing what follows the cell `q` of a chain: the cells before `q` are untouched,
`q` is relinked to the head of the new tail. -/
theorem cells_splice (nodes nodes2 : Ptr → Option slist_node_t) (q : Ptr × Ptr)
    (old new : List (Ptr × Ptr)) :
    ∀ (xs : List (Ptr × Ptr)), (∀ a ∈ addrs xs, nodes2 a = nodes a) →
      Cells nodes (xs ++ q :: old) → nodes2 q.1 = some ⟨q.2, headAddr new⟩ →
      Cells nodes2 new → Cells nodes2 (xs ++ q :: new)
  | [], _, h, hq, hnew => ⟨h.1, hq, hnew⟩
  | x :: xs, hag, h, hq, hnew => by
    refine ⟨h.1, ?_, cells_splice nodes nodes2 q old new xs (fun a ha => hag a ?_) h.2.2 hq hnew⟩
    · rw [hag x.1 (by simp [addrs])]
      have hx : nodes x.1 = some ⟨x.2, headAddr (xs ++ q :: old)⟩ := h.2.1
      rw [headAddr_append_cons xs q old new] at hx
      exact hx
    · simp only [addrs, List.map_cons, List.mem_cons]; exact Or.inr ha

theorem eq_nil_or_snoc (cs : List (Ptr × Ptr)) : cs = [] ∨ ∃ xs q, cs = xs ++ [q] := by
  rcases List.eq_nil_or_concat cs with h | ⟨xs, q, h⟩
  · exact Or.inl h
  · exact Or.inr ⟨xs, q, by simpa using h⟩

theorem nodup_split (xs : List (Ptr × Ptr)) (q : Ptr × Ptr) (ys : List (Ptr × Ptr))
    (h : (addrs (xs ++ q :: ys)).Nodup) :
    (∀ a ∈ addrs xs, a ≠ q.1) ∧ (∀ a ∈ addrs ys, a ≠ q.1) ∧
      (∀ a ∈ addrs xs, a ∉ addrs ys) := by
  simp only [addrs, List.map_append, List.map_cons] at h ⊢
  rw [List.nodup_append] at h
  obtain ⟨_, h2, h3⟩ := h
  rw [List.nodup_cons] at h2
  refine ⟨?_, ?_, ?_⟩
  · intro a ha hq
    exact h3 ha (by rw [hq]; exact List.mem_cons_self _ _)
  · intro a ha hq
    exact h2.1 (hq ▸ ha)
  · intro a ha hb
    exact h3 ha (List.mem_cons_of_mem _ hb)

theorem add_node_wf (m : Mem) (l_ptr data node : Ptr) (cs : List (Ptr × Ptr))
    (hwf : WF m l_ptr cs) (hnode : node ≠ 0) (hfresh : m.nodes node = none) :
    ∃ m2, _util_add_node m l_ptr data node = .ok (true, m2) ∧
      WF m2 l_ptr (cs ++ [(node, data)]) ∧ m2.iters = m.iters ∧
      (∀ p, p ≠ l_ptr → m2.lists p = m.lists p) ∧
      (∀ a, a ≠ node → a ≠ lastAddr cs → m2.nodes a = m.nodes a) := by
  obtain ⟨hl, l, hlist, hstart, hcells, hend, hn⟩ := hwf
  rcases eq_nil_or_snoc cs with rfl | ⟨xs, q, rfl⟩
  · simp [headAddr] at hstart
    simp [_util_add_node, hl, hnode, load, hlist, bind, Except.bind, hstart]
    refine ⟨⟨hl, _, store_same _ _ _, ?_, ?_, ?_, ?_⟩, ?_, ?_⟩
    · simp [headAddr]
    · simp [Cells, hnode, headAddr]
    · simp [lastAddr]
    · simp [hn]
    · intro p hp; simp [store, hp]
    · intro a ha _; simp [store, ha]
  · have hnd := nodup_split _ _ _ (cells_nodup _ _ hcells)
    have hq : m.nodes q.1 = some ⟨q.2, 0⟩ ∧ q.1 ≠ 0 := by
      have := cells_append_right _ _ _ hcells
      exact ⟨this.2.1, this.1⟩
    have hqn : q.1 ≠ node := by
      intro h; rw [h, hfresh] at hq; simp at hq
    have hs : l.start ≠ 0 := by
      rw [hstart]; intro h
      have := (cells_headAddr_eq_zero _ _ hcells).1 h
      simp at this
    rw [lastAddr_concat] at hend
    simp [_util_add_node, hl, hnode, load, hlist, bind, Except.bind, hs, hend, hq,
      store_other _ _ _ _ hqn]
    refine ⟨⟨hl, _, store_same _ _ _, ?_, ?_, ?_, ?_⟩, ?_, ?_⟩
    · simp only [hstart]; exact headAddr_append_cons xs q [] [(node, data)]
    · simp only [List.append_assoc, List.singleton_append]
      refine cells_splice m.nodes _ q [] [(node, data)] xs ?_ hcells ?_ ?_
      · intro a ha
        have h1 : a ≠ q.1 := hnd.1 a ha
        have h2 : a ≠ node := by
          intro h; subst h
          obtain ⟨c, hc, hca⟩ := List.mem_map.1 ha
          obtain ⟨pre, post, hsplit⟩ := List.append_of_mem hc
          have h3 : Cells m.nodes (pre ++ c :: (post ++ [q])) := by
            have := hcells
            rw [hsplit] at this
            simpa using this
          have := (cells_append_right _ _ _ h3).2.1
          rw [hca, hfresh] at this
          simp at this
        simp [store, h1, h2]
      · simp [headAddr]
      · simp [Cells, hnode, headAddr, store, Ne.symm hqn]
    · simp [lastAddr_append_cons, lastAddr]
    · simp [hn]; ring
    · intro p hp; simp [store, hp]
    · intro a ha hb; rw [lastAddr_concat] at hb; simp [store, ha, hb]
/-- The scan loop stops at the last cell before the first later cell holding `data`, or at
the last cell of the chain when there is none. -/
theorem delete_scan_spec (nodes : Ptr → Option slist_node_t) (data : Ptr)
    (rest : List (Ptr × Ptr))
    (hrest : rest = [] ∨ ∃ d post, rest = d :: post ∧ d.2 = data) :
    ∀ (pre : List (Ptr × Ptr)) (c : Ptr × Ptr) (fuel : Nat),
      Cells nodes (c :: pre ++ rest) → (∀ x ∈ pre, x.2 ≠ data) → pre.length < fuel →
      delete_scan nodes data fuel c.1 = .ok (lastAddr (c :: pre))
  | [], c, 0, _, _, hf => by simp at hf
  | [], c, fuel + 1, hc, _, _ => by
    have h1 : nodes c.1 = some ⟨c.2, headAddr rest⟩ := hc.2.1
    rcases hrest with rfl | ⟨d, post, rfl, hd⟩
    · simp [delete_scan, load, hc.1, h1, headAddr, lastAddr, bind, Except.bind]
    · have h2 : Cells nodes (d :: post) := hc.2.2
      have h3 : nodes d.1 = some ⟨d.2, headAddr post⟩ := h2.2.1
      simp [delete_scan, load, hc.1, h1, headAddr, lastAddr, bind, Except.bind, h2.1, h3, hd]
  | p :: pre, c, 0, _, _, hf => by simp at hf
  | p :: pre, c, fuel + 1, hc, hpre, hf => by
    have h1 : nodes c.1 = some ⟨c.2, p.1⟩ := hc.2.1
    have h2 : Cells nodes (p :: pre ++ rest) := hc.2.2
    have h3 : nodes p.1 = some ⟨p.2, headAddr (pre ++ rest)⟩ := h2.2.1
    have h4 : p.2 ≠ data := hpre p (List.mem_cons_self _ _)
    have ih := delete_scan_spec nodes data rest hrest pre p fuel h2
      (fun x hx => hpre x (List.mem_cons_of_mem _ hx)) (by simpa using hf)
    simp [delete_scan, load, hc.1, h1, bind, Except.bind, h2.1, h3, h4, ih, lastAddr]

theorem wf_start_ne_zero (m : Mem) (c : Ptr × Ptr) (cs : List (Ptr × Ptr))
    (l : slist_t) (hstart : l.start = headAddr (c :: cs)) (hcells : Cells m.nodes (c :: cs)) :
    l.start ≠ 0 := by
  rw [hstart]; exact hcells.1

/-- Deleting a value that no node stores: `NULL` comes back and the memory is untouched. -/
theorem delete_node_absent (fuel : Nat) (m : Mem) (l_ptr data : Ptr) (cs : List (Ptr × Ptr))
    (hwf : WF m l_ptr cs) (habs : data ∉ values cs) (hfuel : cs.length ≤ fuel) :
    _util_delete_node fuel m l_ptr data = .ok (0, m) := by
  obtain ⟨hl, l, hlist, hstart, hcells, hend, hn⟩ := hwf
  by_cases hdata : data = 0
  · simp [_util_delete_node, hdata]
  cases cs with
  | nil =>
    simp [headAddr] at hstart
    simp [_util_delete_node, hdata, hl, load, hlist, hstart, bind, Except.bind]
  | cons c cs =>
    have hs : l.start ≠ 0 := wf_start_ne_zero m c cs l hstart hcells
    have hs2 : l.start = c.1 := hstart
    have hc : m.nodes c.1 = some ⟨c.2, headAddr cs⟩ := hcells.2.1
    have hcv : c.2 ≠ data := by
      intro h; apply habs; simp [values, ← h]
    have hscan := delete_scan_spec m.nodes data [] (Or.inl rfl) cs c fuel
      (by simpa using hcells)
      (by intro x hx h; apply habs; simp only [values, List.map_cons, List.mem_cons]
          exact Or.inr (List.mem_map.2 ⟨x, hx, h⟩))
      (by simpa using hfuel)
    rcases eq_nil_or_snoc (c :: cs) with h | ⟨xs, q, h⟩
    · simp at h
    · have hq : m.nodes q.1 = some ⟨q.2, 0⟩ ∧ q.1 ≠ 0 := by
        have := cells_append_right _ xs [q] (h ▸ hcells)
        exact ⟨this.2.1, this.1⟩
      have hlast : lastAddr (c :: cs) = q.1 := by rw [h, lastAddr_concat]
      rw [hlast] at hscan
      simp [_util_delete_node, hdata, hl, load, hlist, hs, hs2, hcells.1, hc, hcv, hscan,
        hq, bind, Except.bind]

/-- Deleting a non-`NULL` value whose first occurrence is the cell `d`: the node of `d` comes
back, the list keeps all other cells in order, and only the predecessor of `d` is rewritten. -/
theorem delete_node_found (fuel : Nat) (m : Mem) (l_ptr data : Ptr)
    (pre : List (Ptr × Ptr)) (d : Ptr × Ptr) (post : List (Ptr × Ptr))
    (hwf : WF m l_ptr (pre ++ d :: post)) (hdata : data ≠ 0)
    (hpre : ∀ x ∈ pre, x.2 ≠ data) (hd : d.2 = data) (hfuel : pre.length ≤ fuel) :
    ∃ m2, _util_delete_node fuel m l_ptr data = .ok (d.1, m2) ∧
      WF m2 l_ptr (pre ++ post) ∧ m2.iters = m.iters ∧
      (∀ p, p ≠ l_ptr → m2.lists p = m.lists p) ∧
      (∀ a, a ∉ addrs pre → m2.nodes a = m.nodes a) := by
  obtain ⟨hl, l, hlist, hstart, hcells, hend, hn⟩ := hwf
  have hnd := nodup_split _ _ _ (cells_nodup _ _ hcells)
  have hdc : Cells m.nodes (d :: post) := cells_append_right _ _ _ hcells
  have hdn : m.nodes d.1 = some ⟨d.2, headAddr post⟩ := hdc.2.1
  rw [lastAddr_append_cons] at hend
  have hde : d.1 = l.end_ ↔ post = [] := by
    cases post with
    | nil => simp [hend, lastAddr]
    | cons e post =>
      have h1 : l.end_ = lastAddr (e :: post) := hend
      have h2 := hnd.2.1 _ (lastAddr_mem_addrs e post)
      rw [← h1] at h2
      simp [Ne.symm h2]
  cases pre with
  | nil =>
    have hs2 : l.start = d.1 := hstart
    have hs : l.start ≠ 0 := by rw [hs2]; exact hdc.1
    simp only [List.nil_append] at hn ⊢
    simp only [_util_delete_node, __util_del_first_node, hdata, hl, load, hlist, hs, hs2, hdc.1,
      hdn, hd, bind, Except.bind, if_true, if_false, store_same]
    cases post with
    | nil =>
      simp only [hde.2 rfl, if_true]
      refine ⟨_, rfl, ⟨hl, _, store_same _ _ _, ?_, ?_, ?_, ?_⟩, rfl, ?_, ?_⟩
      · rfl
      · trivial
      · rfl
      · simp [hn]
      · intro p hp; simp [store, hp]
      · intro a _; rfl
    | cons e post =>
      have : ¬ d.1 = l.end_ := by rw [hde]; simp
      simp only [this, if_false]
      refine ⟨_, rfl, ⟨hl, _, store_same _ _ _, ?_, ?_, ?_, ?_⟩, rfl, ?_, ?_⟩
      · rfl
      · exact hdc.2.2
      · exact hend
      · simp [hn]
      · intro p hp; simp [store, hp]
      · intro a _; rfl
  | cons c pre =>
    have hs2 : l.start = c.1 := hstart
    have hs : l.start ≠ 0 := by rw [hs2]; exact hcells.1
    have hc : m.nodes c.1 = some ⟨c.2, headAddr (pre ++ d :: post)⟩ := hcells.2.1
    have hcv : c.2 ≠ data := hpre c (List.mem_cons_self _ _)
    have hscan := delete_scan_spec m.nodes data (d :: post) (Or.inr ⟨d, post, rfl, hd⟩) pre c fuel
      hcells (fun x hx => hpre x (List.mem_cons_of_mem _ hx)) (by simpa using hfuel)
    obtain ⟨xs, q, hxq⟩ : ∃ xs q, c :: pre = xs ++ [q] := by
      rcases eq_nil_or_snoc (c :: pre) with h | h
      · simp at h
      · exact h
    have hcells2 : Cells m.nodes (xs ++ q :: d :: post) := by
      have := hcells
      rw [show c :: pre ++ d :: post = (c :: pre) ++ d :: post from rfl, hxq] at this
      simpa using this
    have hnd2 := nodup_split _ _ _ (cells_nodup _ _ hcells2)
    have hqc : Cells m.nodes (q :: d :: post) := cells_append_right _ _ _ hcells2
    have hqn : m.nodes q.1 = some ⟨q.2, d.1⟩ := hqc.2.1
    have hlast : lastAddr (c :: pre) = q.1 := by rw [hxq, lastAddr_concat]
    rw [hlast] at hscan
    have hcells3 : Cells (store m.nodes q.1 ⟨q.2, headAddr post⟩) (xs ++ q :: post) := by
      refine cells_splice m.nodes _ q (d :: post) post xs ?_ hcells2 (store_same _ _ _) ?_
      · intro a ha; exact store_other _ _ _ _ (hnd2.1 a ha)
      · refine cells_frame m.nodes _ post ?_ hdc.2.2
        intro a ha
        refine store_other _ _ _ _ (hnd2.2.1 a ?_)
        simp only [addrs, List.map_cons, List.mem_cons]; exact Or.inr ha
    have hres : c :: pre ++ post = xs ++ q :: post := by
      rw [show c :: pre ++ post = (c :: pre) ++ post from rfl, hxq]; simp
    have hframe : ∀ a, a ∉ addrs (c :: pre) → store m.nodes q.1 ⟨q.2, headAddr post⟩ a = m.nodes a := by
      intro a ha
      refine store_other _ _ _ _ ?_
      intro h; apply ha; rw [hxq, h]; simp [addrs]
    simp only [_util_delete_node, hdata, hl, load, hlist, hs, hs2, hcells.1, hc, hcv, hscan,
      hqc.1, hqn, hdc.1, hdn, bind, Except.bind, if_true, if_false, store_same]
    cases post with
    | nil =>
      simp only [hde.2 rfl, if_true]
      refine ⟨_, rfl, ⟨hl, _, store_same _ _ _, ?_, ?_, ?_, ?_⟩, rfl, ?_, hframe⟩
      · simp only [hs2]; rfl
      · rw [hres]; exact hcells3
      · rw [hres, lastAddr_concat]
      · simp [hn]
      · intro p hp; simp [store, hp]
    | cons e post =>
      have : ¬ d.1 = l.end_ := by rw [hde]; simp
      simp only [this, if_false]
      refine ⟨_, rfl, ⟨hl, _, store_same _ _ _, ?_, ?_, ?_, ?_⟩, rfl, ?_, hframe⟩
      · simp only [hs2]; rfl
      · rw [hres]; exact hcells3
      · simp only [hend]
        rw [show c :: pre ++ e :: post = (c :: pre) ++ e :: post from rfl, lastAddr_append_cons]
        rfl
      · simp [hn]; ring
      · intro p hp; simp [store, hp]

theorem first_occurrence (v : Ptr) :
    ∀ (cs : List (Ptr × Ptr)), v ∈ values cs →
      ∃ pre d post, cs = pre ++ d :: post ∧ d.2 = v ∧ ∀ x ∈ pre, x.2 ≠ v
  | [], h => by simp [values] at h
  | c :: cs, h => by
    by_cases hc : c.2 = v
    · exact ⟨[], c, cs, rfl, hc, by simp⟩
    · have h2 : v ∈ values cs := by
        simp only [values, List.map_cons, List.mem_cons] at h
        rcases h with h | h
        · exact absurd h.symm hc
        · exact h
      obtain ⟨pre, d, post, he, hd, hp⟩ := first_occurrence v cs h2
      refine ⟨c :: pre, d, post, by rw [he]; rfl, hd, ?_⟩
      intro x hx
      rcases List.mem_cons.1 hx with rfl | hx
      · exact hc
      · exact hp x hx

theorem values_erase_first (v : Ptr) (pre : List (Ptr × Ptr)) (d : Ptr × Ptr)
    (post : List (Ptr × Ptr)) (hd : d.2 = v) (hpre : ∀ x ∈ pre, x.2 ≠ v) :
    (values (pre ++ d :: post)).erase v = values (pre ++ post) := by
  have hnot : v ∉ values pre := by
    intro h
    obtain ⟨x, hx, hxv⟩ := List.mem_map.1 h
    exact hpre x hx hxv
  simp only [values, List.map_append, List.map_cons] at hnot ⊢
  rw [List.erase_append_right _ hnot, hd, List.erase_cons_head]

theorem init_list_wf (m0 m : Mem) (l_ptr : Ptr) (hl : l_ptr ≠ 0)
    (h : _util_init_list m0 l_ptr = .ok m) : WF m l_ptr [] := by
  simp only [_util_init_list, hl, if_false, load] at h
  cases hm : m0.lists l_ptr with
  | none => simp [hm, bind, Except.bind] at h
  | some l0 =>
    simp only [hm, bind, Except.bind, Except.ok.injEq] at h
    subst h
    exact ⟨hl, _, store_same _ _ _, rfl, trivial, rfl, rfl⟩

theorem built_wf (l_ptr : Ptr) (vs : List Ptr) (m : Mem) (h : Built l_ptr vs m) :
    (l_ptr = 0 ∧ vs = []) ∨ ∃ cs, WF m l_ptr cs ∧ values cs = vs := by
  induction h with
  | init m0 m hinit =>
    by_cases hl : l_ptr = 0
    · exact Or.inl ⟨hl, rfl⟩
    · exact Or.inr ⟨[], init_list_wf m0 m l_ptr hl hinit, rfl⟩
  | add vs m data node m2 _ hfresh hadd ih =>
    right
    rcases ih with ⟨hl, _⟩ | ⟨cs, hwf, hvs⟩
    · simp [_util_add_node, hl] at hadd
    · have hnode : node ≠ 0 := by
        intro h0
        simp [_util_add_node, h0] at hadd
      obtain ⟨m3, hadd3, hwf3, _⟩ := add_node_wf m l_ptr data node cs hwf hnode hfresh
      rw [hadd3] at hadd
      simp only [Except.ok.injEq, Prod.mk.injEq, true_and] at hadd
      subst hadd
      exact ⟨cs ++ [(node, data)], hwf3, by simp [values, ← hvs]⟩

theorem exMem_wf : WF exMem 1 exCells :=
  ⟨by decide, ⟨10, 30, 3⟩, rfl, rfl, by decide, rfl, rfl⟩

theorem exOne_wf : WF exOne 1 [(10, 100)] :=
  ⟨by decide, ⟨10, 10, 1⟩, rfl, rfl, by decide, rfl, rfl⟩

theorem exInit_built : Built 1 [] exInit := Built.init exRaw exInit rfl

theorem exNull_built : Built 1 [0] exNull :=
  Built.add [] exInit 0 10 exNull exInit_built rfl rfl

theorem exTwo_built : Built 1 [100, 200] exTwo :=
  Built.add [100] (memOf (_util_add_node exInit 1 100 10)) 200 20 exTwo
    (Built.add [] exInit 100 10 _ exInit_built rfl rfl) rfl rfl

theorem reach_of_cells (nodes : Ptr → Option slist_node_t) :
    ∀ (cs : List (Ptr × Ptr)), Cells nodes cs →
      ∀ a, (a ≠ 0 ∧ (nodes a).isSome ∧ Reach nodes (headAddr cs) a) ↔ a ∈ addrs cs
  | [], _, a => by
    simp only [addrs, List.map_nil, List.not_mem_nil, iff_false, not_and]
    intro ha _ hr
    cases hr with
    | here => exact ha rfl
    | next _ _ n hp _ _ => exact hp rfl
  | c :: cs, h, a => by
    have ih := reach_of_cells nodes cs h.2.2 a
    have hc : nodes c.1 = some ⟨c.2, headAddr cs⟩ := h.2.1
    simp only [addrs, List.map_cons, List.mem_cons]
    constructor
    · rintro ⟨ha, hs, hr⟩
      cases hr with
      | here => exact Or.inl rfl
      | next _ _ n hp hn hr2 =>
        have hn2 : nodes c.1 = some n := hn
        rw [hc] at hn2
        simp only [Option.some.injEq] at hn2
        subst hn2
        exact Or.inr (ih.1 ⟨ha, hs, hr2⟩)
    · rintro (rfl | hmem)
      · exact ⟨h.1, by rw [hc]; rfl, Reach.here _⟩
      · obtain ⟨ha, hs, hr⟩ := ih.2 hmem
        exact ⟨ha, hs, Reach.next c.1 a _ h.1 hc hr⟩

theorem reach_to_cells (nodes : Ptr → Option slist_node_t) (p q : Ptr) (e : slist_node_t)
    (hr : Reach nodes p q) (hq : q ≠ 0) (he : nodes q = some e) (hlink : e.link = 0) :
    ∃ cs, cs ≠ [] ∧ headAddr cs = p ∧ Cells nodes cs ∧ lastAddr cs = q := by
  induction hr with
  | here p =>
    refine ⟨[(p, e.value)], by simp, rfl, ⟨hq, ?_, trivial⟩, rfl⟩
    rw [he]; cases e; simp_all [headAddr]
  | next p q n hp hn _ ih =>
    obtain ⟨cs, hne, hhead, hcells, hlast⟩ := ih hq he
    refine ⟨(p, n.value) :: cs, by simp, rfl, ⟨hp, ?_, hcells⟩, ?_⟩
    · rw [hhead]; exact hn
    · cases cs with
      | nil => exact absurd rfl hne
      | cons c cs => exact hlast

theorem wf_inv (m : Mem) (l_ptr : Ptr) (cs : List (Ptr × Ptr)) (hwf : WF m l_ptr cs) :
    Inv m l_ptr := by
  obtain ⟨hl, l, hlist, hstart, hcells, hend, hn⟩ := hwf
  have hnd := cells_nodup _ _ hcells
  have hreach := reach_of_cells m.nodes cs hcells
  refine ⟨hl, l, hlist, ⟨(addrs cs).toFinset, ?_, ?_⟩, ?_, ?_, ?_⟩
  · intro a; rw [List.mem_toFinset, hstart]; exact (hreach a).symm
  · rw [List.toFinset_card_of_nodup hnd, hn]; simp [addrs]
  · rw [hstart, hn, cells_headAddr_eq_zero _ _ hcells]
    constructor
    · rintro rfl; rfl
    · intro h; exact List.length_eq_zero.1 (by exact_mod_cast h)
  · rw [hstart, cells_headAddr_eq_zero _ _ hcells]
    rintro rfl; exact hend
  · rw [hstart, Ne, cells_headAddr_eq_zero _ _ hcells]
    intro hne
    rcases eq_nil_or_snoc cs with h | ⟨xs, q, rfl⟩
    · exact absurd h hne
    · rw [lastAddr_concat] at hend
      have hq := cells_append_right _ _ _ hcells
      rw [hend]
      refine ⟨((hreach q.1).2 (by simp [addrs])).2.2, ⟨q.2, 0⟩, hq.1, hq.2.1, rfl⟩

theorem inv_wf (m : Mem) (l_ptr : Ptr) (hinv : Inv m l_ptr) :
    ∃ cs l, WF m l_ptr cs ∧ m.lists l_ptr = some l ∧ l.nnodes = cs.length := by
  obtain ⟨hl, l, hlist, ⟨s, hs, hcard⟩, hzero, hend0, hne⟩ := hinv
  by_cases h0 : l.start = 0
  · exact ⟨[], l, ⟨hl, l, hlist, h0, trivial, hend0 h0, hzero.1 h0⟩, hlist, hzero.1 h0⟩
  · obtain ⟨hr, e, he0, he, hlink⟩ := hne h0
    obtain ⟨cs, _, hhead, hcells, hlast⟩ := reach_to_cells m.nodes _ _ e hr he0 he hlink
    have hreach := reach_of_cells m.nodes cs hcells
    have hseq : s = (addrs cs).toFinset := by
      ext a
      rw [hs a, List.mem_toFinset, ← hhead]
      exact hreach a
    have hlen : l.nnodes = cs.length := by
      rw [hcard, hseq, List.toFinset_card_of_nodup (cells_nodup _ _ hcells)]
      simp [addrs]
    exact ⟨cs, l, ⟨hl, l, hlist, hhead.symm, hcells, hlast.symm, hlen⟩, hlist, hlen⟩

/-! ## Iteration -/

theorem get_list_next_step (m : Mem) (iter : Ptr) (c : Ptr × Ptr) (cs : List (Ptr × Ptr))
    (hiter : iter ≠ 0) (hit : m.iters iter = some ⟨c.1⟩) (hc : Cells m.nodes (c :: cs)) :
    _util_get_list_next m iter =
      .ok (c.2, { m with iters := store m.iters iter ⟨headAddr cs⟩ }) := by
  have hn : m.nodes c.1 = some ⟨c.2, headAddr cs⟩ := hc.2.1
  simp [_util_get_list_next, hiter, load, hit, hc.1, hn, bind, Except.bind]

theorem get_list_next_n_spec (iter : Ptr) (hiter : iter ≠ 0) :
    ∀ (k : Nat) (cs : List (Ptr × Ptr)) (m : Mem),
      m.iters iter = some ⟨headAddr cs⟩ → Cells m.nodes cs → k ≤ cs.length →
      ∃ m2, get_list_next_n iter k m = .ok (values (cs.take k), m2) ∧
        m2.lists = m.lists ∧ m2.nodes = m.nodes ∧
        m2.iters iter = some ⟨headAddr (cs.drop k)⟩ ∧
        ∀ j, j ≠ iter → m2.iters j = m.iters j
  | 0, cs, m, hit, _, _ => ⟨m, rfl, rfl, rfl, hit, fun _ _ => rfl⟩
  | k + 1, [], m, _, _, hk => by simp at hk
  | k + 1, c :: cs, m, hit, hc, hk => by
    have hstep := get_list_next_step m iter c cs hiter hit hc
    obtain ⟨m2, hrun, hlists, hnodes, hpos, hothers⟩ :=
      get_list_next_n_spec iter hiter k cs { m with iters := store m.iters iter ⟨headAddr cs⟩ }
        (store_same _ _ _) hc.2.2 (by simpa using hk)
    refine ⟨m2, ?_, hlists, hnodes, hpos, ?_⟩
    · simp [get_list_next_n, hstep, hrun, bind, Except.bind, values]
    · intro j hj; rw [hothers j hj]; exact store_other _ _ _ _ hj

theorem get_list_next_frame (m : Mem) (iter v : Ptr) (m2 : Mem)
    (h : _util_get_list_next m iter = .ok (v, m2)) :
    m2.lists = m.lists ∧ m2.nodes = m.nodes ∧ ∀ j, j ≠ iter → m2.iters j = m.iters j := by
  unfold _util_get_list_next at h
  split at h
  · simp only [Except.ok.injEq, Prod.mk.injEq] at h
    rw [← h.2]; exact ⟨rfl, rfl, fun _ _ => rfl⟩
  · cases h1 : load m.iters iter with
    | error e => simp [h1, bind, Except.bind] at h
    | ok it =>
      cases h2 : load m.nodes it.node_ptr with
      | error e => simp [h1, h2, bind, Except.bind] at h
      | ok n =>
        simp only [h1, h2, bind, Except.bind, Except.ok.injEq, Prod.mk.injEq] at h
        rw [← h.2]
        exact ⟨rfl, rfl, fun j hj => store_other _ _ _ _ hj⟩

theorem get_list_next_n_frame (iter : Ptr) :
    ∀ (k : Nat) (m : Mem) (vs : List Ptr) (m2 : Mem),
      get_list_next_n iter k m = .ok (vs, m2) →
      m2.lists = m.lists ∧ m2.nodes = m.nodes ∧ ∀ j, j ≠ iter → m2.iters j = m.iters j
  | 0, m, vs, m2, h => by
    simp only [get_list_next_n, Except.ok.injEq, Prod.mk.injEq] at h
    rw [← h.2]; exact ⟨rfl, rfl, fun _ _ => rfl⟩
  | k + 1, m, vs, m2, h => by
    simp only [get_list_next_n, bind, Except.bind] at h
    cases h1 : _util_get_list_next m iter with
    | error e => simp [h1] at h
    | ok r1 =>
      obtain ⟨v, m1⟩ := r1
      cases h2 : get_list_next_n iter k m1 with
      | error e => simp [h1, h2] at h
      | ok r2 =>
        obtain ⟨ws, m3⟩ := r2
        simp only [h1, h2, Except.ok.injEq, Prod.mk.injEq] at h
        obtain ⟨a1, a2, a3⟩ := get_list_next_frame m iter v m1 h1
        obtain ⟨b1, b2, b3⟩ := get_list_next_n_frame iter k m1 ws m3 h2
        rw [← h.2]
        exact ⟨b1.trans a1, b2.trans a2, fun j hj => (b3 j hj).trans (a3 j hj)⟩

theorem init_list_iterator_frame (m : Mem) (l_ptr temp r : Ptr) (m1 : Mem)
    (h : _util_init_list_iterator m l_ptr temp = .ok (r, m1)) :
    m1.lists = m.lists ∧ m1.nodes = m.nodes ∧ ∀ j, j ≠ temp → m1.iters j = m.iters j := by
  unfold _util_init_list_iterator at h
  split at h
  · simp only [Except.ok.injEq, Prod.mk.injEq] at h
    rw [← h.2]; exact ⟨rfl, rfl, fun _ _ => rfl⟩
  · cases h1 : load m.lists l_ptr with
    | error e => simp [h1, bind, Except.bind] at h
    | ok l =>
      simp only [h1, bind, Except.bind] at h
      split at h
      · simp only [Except.ok.injEq, Prod.mk.injEq] at h
        rw [← h.2]; exact ⟨rfl, rfl, fun _ _ => rfl⟩
      · split at h
        · simp only [Except.ok.injEq, Prod.mk.injEq] at h
          rw [← h.2]; exact ⟨rfl, rfl, fun _ _ => rfl⟩
        · simp only [Except.ok.injEq, Prod.mk.injEq] at h
          rw [← h.2]
          exact ⟨rfl, rfl, fun j hj => store_other _ _ _ _ hj⟩

theorem init_list_iterator_ok (m : Mem) (l_ptr temp : Ptr) (c : Ptr × Ptr)
    (cs : List (Ptr × Ptr)) (hwf : WF m l_ptr (c :: cs)) (htemp : temp ≠ 0) :
    _util_init_list_iterator m l_ptr temp =
      .ok (temp, { m with iters := store m.iters temp ⟨c.1⟩ }) := by
  obtain ⟨hl, l, hlist, hstart, hcells, _, _⟩ := hwf
  have hs2 : l.start = c.1 := hstart
  simp [_util_init_list_iterator, hl, load, hlist, hs2, hcells.1, htemp, bind, Except.bind]

theorem init_list_iterator_empty (m : Mem) (l_ptr temp : Ptr) (hwf : WF m l_ptr []) :
    _util_init_list_iterator m l_ptr temp = .ok (0, m) := by
  obtain ⟨hl, l, hlist, hstart, _, _, _⟩ := hwf
  have hs2 : l.start = 0 := hstart
  simp [_util_init_list_iterator, hl, load, hlist, hs2, bind, Except.bind]

/-! ## Properties of the specification -/

/-- C1 (as amended): on a list built by `_util_init_list` and a non-empty sequence of
successful `_util_add_node` calls whose last value `v` is not `NULL`, `_util_delete_node`
with `v` returns a node that stores `v`, and `nnodes` afterwards is one less than before. -/
theorem C1_delete_last_added (l_ptr : Ptr) (vs : List Ptr) (v : Ptr) (m : Mem) (fuel : Nat)
    (hb : Built l_ptr (vs ++ [v]) m) (hv : v ≠ 0) (hfuel : vs.length + 1 ≤ fuel) :
    ∃ p m2 n l l2, _util_delete_node fuel m l_ptr v = .ok (p, m2) ∧
      p ≠ 0 ∧ m2.nodes p = some n ∧ n.value = v ∧
      m.lists l_ptr = some l ∧ m2.lists l_ptr = some l2 ∧ l2.nnodes = l.nnodes - 1 := by
  rcases built_wf l_ptr _ m hb with ⟨_, h⟩ | ⟨cs, hwf, hvs⟩
  · simp at h
  · have hmem : v ∈ values cs := by rw [hvs]; simp
    obtain ⟨pre, d, post, rfl, hd, hpre⟩ := first_occurrence v cs hmem
    have hlen : pre.length ≤ fuel := by
      have := congrArg List.length hvs
      simp [values] at this
      omega
    obtain ⟨m2, hdel, hwf2, _, _, hnodes⟩ :=
      delete_node_found fuel m l_ptr v pre d post hwf hv hpre hd hlen
    obtain ⟨_, l, hlist, _, hcells, _, hn⟩ := hwf
    obtain ⟨_, l2, hlist2, _, _, _, hn2⟩ := hwf2
    have hdc : Cells m.nodes (d :: post) := cells_append_right _ _ _ hcells
    have hnotin : d.1 ∉ addrs pre := fun h =>
      (nodup_split _ _ _ (cells_nodup _ _ hcells)).1 d.1 h rfl
    refine ⟨d.1, m2, ⟨d.2, headAddr post⟩, l, l2, hdel, hdc.1, ?_, hd, hlist, hlist2, ?_⟩
    · rw [hnodes d.1 hnotin]; exact hdc.2.1
    · rw [hn, hn2]; simp; ring

/-- C1, instance: after appending `100` and `200`, deleting `200` returns a node storing
`200` and decrements `nnodes`. -/
theorem C1_delete_last_added_witness :
    ∃ p m2 n l l2, _util_delete_node 2 exTwo 1 200 = .ok (p, m2) ∧
      p ≠ 0 ∧ m2.nodes p = some n ∧ n.value = 200 ∧
      exTwo.lists 1 = some l ∧ m2.lists 1 = some l2 ∧ l2.nnodes = l.nnodes - 1 :=
  C1_delete_last_added 1 [100] 200 exTwo 2 exTwo_built (by decide) (by decide)

/-- C1 as stated fails when the last appended value is `NULL`: the list built by appending
`NULL` once has `nnodes = 1`, and `_util_delete_node` with `NULL` returns `NULL` and leaves the
memory (so `nnodes` too) as it was. -/
theorem C1_counterexample_null_value :
    Built 1 ([] ++ [0]) exNull ∧ exNull.lists 1 = some ⟨10, 10, 1⟩ ∧
      _util_delete_node 2 exNull 1 0 = .ok (0, exNull) ∧
      ¬ ∃ p m2 n l l2, _util_delete_node 2 exNull 1 0 = .ok (p, m2) ∧
        p ≠ 0 ∧ m2.nodes p = some n ∧ n.value = 0 ∧
        exNull.lists 1 = some l ∧ m2.lists 1 = some l2 ∧ l2.nnodes = l.nnodes - 1 := by
  refine ⟨exNull_built, by decide, rfl, ?_⟩
  rintro ⟨p, m2, n, l, l2, hdel, hp, _⟩
  have heval : _util_delete_node 2 exNull 1 0 = .ok (0, exNull) := rfl
  rw [heval] at hdel
  simp only [Except.ok.injEq, Prod.mk.injEq] at hdel
  exact hp hdel.1.symm

/-- C2: on a list built by `_util_init_list` and successful `_util_add_node` calls (none
included), `_util_delete_node` with a value that no node stores returns `NULL` and leaves
the whole memory, hence `nnodes`, `start`, `end` and the stored values, as it was. -/
theorem C2_delete_absent_noop (l_ptr : Ptr) (vs : List Ptr) (v : Ptr) (m : Mem) (fuel : Nat)
    (hb : Built l_ptr vs m) (hv : v ∉ vs) (hfuel : vs.length ≤ fuel) :
    _util_delete_node fuel m l_ptr v = .ok (0, m) := by
  rcases built_wf l_ptr _ m hb with ⟨hl, _⟩ | ⟨cs, hwf, hvs⟩
  · by_cases hd : v = 0 <;> simp [_util_delete_node, hl, hd]
  · refine delete_node_absent fuel m l_ptr v cs hwf (by rw [hvs]; exact hv) ?_
    have := congrArg List.length hvs
    simp [values] at this
    omega

/-- C2, instance: deleting `300` from the list `100, 200`. -/
theorem C2_delete_absent_noop_witness : _util_delete_node 2 exTwo 1 300 = .ok (0, exTwo) :=
  C2_delete_absent_noop 1 [100, 200] 300 exTwo 2 exTwo_built (by decide) (by decide)

/-- C3: on a well-formed list with cells `cs` and for a non-`NULL` value `data` stored in
some node, `_util_delete_node` returns the first node from the head that stores `data`; the
list is well formed afterwards with that one cell removed and all others in place, its
values are the old values with the first occurrence of `data` erased, and `nnodes` is one
less. -/
theorem C3_delete_first_occurrence (m : Mem) (l_ptr data : Ptr) (cs : List (Ptr × Ptr))
    (fuel : Nat) (hwf : WF m l_ptr cs) (hdata : data ≠ 0) (hmem : data ∈ values cs)
    (hfuel : cs.length ≤ fuel) :
    ∃ pre d post m2 l l2, cs = pre ++ d :: post ∧ d.2 = data ∧ (∀ x ∈ pre, x.2 ≠ data) ∧
      _util_delete_node fuel m l_ptr data = .ok (d.1, m2) ∧
      WF m2 l_ptr (pre ++ post) ∧ values (pre ++ post) = (values cs).erase data ∧
      m.lists l_ptr = some l ∧ m2.lists l_ptr = some l2 ∧ l2.nnodes = l.nnodes - 1 := by
  obtain ⟨pre, d, post, rfl, hd, hpre⟩ := first_occurrence data cs hmem
  have hlen : pre.length ≤ fuel := by simp at hfuel; omega
  obtain ⟨m2, hdel, hwf2, _, _, _⟩ :=
    delete_node_found fuel m l_ptr data pre d post hwf hdata hpre hd hlen
  obtain ⟨_, l, hlist, _, _, _, hn⟩ := hwf
  obtain ⟨_, l2, hlist2, _, _, _, hn2⟩ := id hwf2
  refine ⟨pre, d, post, m2, l, l2, rfl, hd, hpre, hdel, hwf2,
    (values_erase_first data pre d post hd hpre).symm, hlist, hlist2, ?_⟩
  rw [hn, hn2]; simp; ring

/-- C3, instance: deleting `200` from the list `100, 200, 100`. -/
theorem C3_delete_first_occurrence_witness :
    ∃ pre d post m2 l l2, exCells = pre ++ d :: post ∧ d.2 = 200 ∧ (∀ x ∈ pre, x.2 ≠ 200) ∧
      _util_delete_node 3 exMem 1 200 = .ok (d.1, m2) ∧
      WF m2 1 (pre ++ post) ∧ values (pre ++ post) = (values exCells).erase 200 ∧
      exMem.lists 1 = some l ∧ m2.lists 1 = some l2 ∧ l2.nnodes = l.nnodes - 1 :=
  C3_delete_first_occurrence exMem 1 200 exCells 3 exMem_wf (by decide) (by decide) (by decide)

/-- C4: on a well-formed list with cells `cs`, `_util_add_node` with a successful
allocation (`node` not `NULL`) returns `TRUE`, the list is then well formed with the cells
`cs` followed by the new one, so its values are the old values followed by `data`, and
`nnodes` is one more; with a failed allocation it returns `FALSE` with the memory unchanged;
and `FALSE` is returned in no other case. -/
theorem C4_add_node_appends (m : Mem) (l_ptr data node : Ptr) (cs : List (Ptr × Ptr))
    (hwf : WF m l_ptr cs) (hfresh : node ≠ 0 → m.nodes node = none) :
    (node ≠ 0 → ∃ m2 l l2, _util_add_node m l_ptr data node = .ok (true, m2) ∧
      WF m2 l_ptr (cs ++ [(node, data)]) ∧ values (cs ++ [(node, data)]) = values cs ++ [data] ∧
      m.lists l_ptr = some l ∧ m2.lists l_ptr = some l2 ∧ l2.nnodes = l.nnodes + 1) ∧
    (node = 0 → _util_add_node m l_ptr data node = .ok (false, m)) ∧
    (∀ m2, _util_add_node m l_ptr data node = .ok (false, m2) → node = 0 ∧ m2 = m) := by
  have hok : node ≠ 0 → ∃ m2 l l2, _util_add_node m l_ptr data node = .ok (true, m2) ∧
      WF m2 l_ptr (cs ++ [(node, data)]) ∧ values (cs ++ [(node, data)]) = values cs ++ [data] ∧
      m.lists l_ptr = some l ∧ m2.lists l_ptr = some l2 ∧ l2.nnodes = l.nnodes + 1 := by
    intro hnode
    obtain ⟨m2, hadd, hwf2, _⟩ := add_node_wf m l_ptr data node cs hwf hnode (hfresh hnode)
    obtain ⟨_, l, hlist, _, _, _, hn⟩ := hwf
    obtain ⟨_, l2, hlist2, _, _, _, hn2⟩ := id hwf2
    refine ⟨m2, l, l2, hadd, hwf2, by simp [values], hlist, hlist2, ?_⟩
    rw [hn, hn2]; simp
  refine ⟨hok, ?_, ?_⟩
  · intro h0
    simp [_util_add_node, h0]
  · intro m2 hfalse
    by_cases h0 : node = 0
    · simp [_util_add_node, h0] at hfalse
      exact ⟨h0, hfalse.symm⟩
    · obtain ⟨m3, _, _, hadd, _⟩ := hok h0
      rw [hadd] at hfalse
      simp at hfalse

/-- C4, instance: appending `300` in a node allocated at `40` to the list `100, 200, 100`. -/
theorem C4_add_node_appends_witness :
    ∃ m2 l l2, _util_add_node exMem 1 300 40 = .ok (true, m2) ∧
      WF m2 1 (exCells ++ [(40, 300)]) ∧
      values (exCells ++ [(40, 300)]) = values exCells ++ [300] ∧
      exMem.lists 1 = some l ∧ m2.lists 1 = some l2 ∧ l2.nnodes = l.nnodes + 1 :=
  (C4_add_node_appends exMem 1 300 40 exCells exMem_wf (fun _ => rfl)).1 (by decide)

/-- C5: the container invariant holds after `_util_init_list`, and every `_util_add_node`
call (allocation succeeding or failing) and every `_util_delete_node` call (node found or
not) on a list that satisfies it returns and leaves a list that satisfies it. -/
theorem C5_invariant_preserved (m : Mem) (l_ptr : Ptr) (l0 : slist_t)
    (hl : l_ptr ≠ 0) (hobj : m.lists l_ptr = some l0) :
    (∃ m1, _util_init_list m l_ptr = .ok m1 ∧ Inv m1 l_ptr) ∧
    (Inv m l_ptr → ∀ data node, (node ≠ 0 → m.nodes node = none) →
      ∃ r m2, _util_add_node m l_ptr data node = .ok (r, m2) ∧ Inv m2 l_ptr) ∧
    (Inv m l_ptr → ∀ data (fuel : Nat), l0.nnodes ≤ fuel →
      ∃ p m2, _util_delete_node fuel m l_ptr data = .ok (p, m2) ∧ Inv m2 l_ptr) := by
  refine ⟨?_, ?_, ?_⟩
  · have hinit : _util_init_list m l_ptr =
        .ok { m with lists := store m.lists l_ptr ⟨0, 0, 0⟩ } := by
      simp [_util_init_list, hl, load, hobj, bind, Except.bind]
    exact ⟨_, hinit, wf_inv _ _ [] (init_list_wf m _ l_ptr hl hinit)⟩
  · intro hinv data node hfresh
    obtain ⟨cs, _, hwf, _, _⟩ := inv_wf m l_ptr hinv
    by_cases h0 : node = 0
    · exact ⟨false, m, by simp [_util_add_node, h0], hinv⟩
    · obtain ⟨m2, hadd, hwf2, _⟩ := add_node_wf m l_ptr data node cs hwf h0 (hfresh h0)
      exact ⟨true, m2, hadd, wf_inv _ _ _ hwf2⟩
  · intro hinv data fuel hfuel
    obtain ⟨cs, l, hwf, hlist, hlen⟩ := inv_wf m l_ptr hinv
    have hcs : cs.length ≤ fuel := by
      rw [hobj] at hlist
      simp only [Option.some.injEq] at hlist
      subst hlist
      rw [hlen] at hfuel
      exact_mod_cast hfuel
    by_cases hmem : data ≠ 0 ∧ data ∈ values cs
    · obtain ⟨pre, d, post, rfl, hd, hpre⟩ := first_occurrence data cs hmem.2
      obtain ⟨m2, hdel, hwf2, _⟩ := delete_node_found fuel m l_ptr data pre d post hwf hmem.1
        hpre hd (by simp at hcs; omega)
      exact ⟨d.1, m2, hdel, wf_inv _ _ _ hwf2⟩
    · by_cases hd : data = 0
      · exact ⟨0, m, by simp [_util_delete_node, hd], hinv⟩
      · have habs : data ∉ values cs := fun h => hmem ⟨hd, h⟩
        exact ⟨0, m, delete_node_absent fuel m l_ptr data cs hwf habs hcs, hinv⟩

/-- C5, instance: the three-node list of `exMem` satisfies the invariant, and so do the
lists left by `_util_init_list`, `_util_add_node` and `_util_delete_node` on it. -/
theorem C5_invariant_preserved_witness :
    Inv exMem 1 ∧
    (∃ m1, _util_init_list exMem 1 = .ok m1 ∧ Inv m1 1) ∧
    (∃ r m2, _util_add_node exMem 1 300 40 = .ok (r, m2) ∧ Inv m2 1) ∧
    (∃ p m2, _util_delete_node 3 exMem 1 200 = .ok (p, m2) ∧ Inv m2 1) :=
  have h := C5_invariant_preserved exMem 1 ⟨10, 30, 3⟩ (by decide) rfl
  have hinv : Inv exMem 1 := wf_inv exMem 1 exCells exMem_wf
  ⟨hinv, h.1, h.2.1 hinv 300 40 (fun _ => rfl), h.2.2 hinv 200 3 (by decide)⟩

/-- C6: on a well-formed list with cells `cs`, after a fresh iterator from
`_util_init_list_iterator` the first `k` calls of `_util_get_list_next` return the first `k`
stored values in head-to-tail order; if `c` is the next cell, the next call returns the
value of `c` and leaves the iterator at the cell after `c` (the `link` of `c`); and
`cs.length` calls return all the values in order. -/
theorem C6_iteration_in_order (m : Mem) (l_ptr temp : Ptr) (cs : List (Ptr × Ptr)) (k : Nat)
    (c : Ptr × Ptr) (hwf : WF m l_ptr cs) (htemp : temp ≠ 0) (hk : cs[k]? = some c) :
    ∃ m1 mk mk2 mn, _util_init_list_iterator m l_ptr temp = .ok (temp, m1) ∧
      get_list_next_n temp k m1 = .ok (values (cs.take k), mk) ∧
      _util_get_list_next mk temp = .ok (c.2, mk2) ∧
      mk2.iters temp = some ⟨headAddr (cs.drop (k + 1))⟩ ∧
      get_list_next_n temp cs.length m1 = .ok (values cs, mn) := by
  have hklt : k < cs.length := (List.getElem?_eq_some_iff.1 hk).1
  have hdrop : cs.drop k = c :: cs.drop (k + 1) := by
    have := List.getElem?_eq_some_iff.1 hk
    rw [List.drop_eq_getElem_cons hklt, this.2]
  cases hcs : cs with
  | nil => rw [hcs] at hklt; simp at hklt
  | cons c0 cs0 =>
    rw [← hcs]
    have hcells : Cells m.nodes cs := hwf.2.choose_spec.2.2.1
    have hinit := init_list_iterator_ok m l_ptr temp c0 cs0 (hcs ▸ hwf) htemp
    have hpos : (store m.iters temp (⟨c0.1⟩ : slist_iterator)) temp = some ⟨headAddr cs⟩ := by
      rw [hcs]; exact store_same _ _ _
    obtain ⟨mk, hrun, _, hnodes, hit, _⟩ := get_list_next_n_spec temp htemp k cs
      { m with iters := store m.iters temp ⟨c0.1⟩ } hpos hcells (le_of_lt hklt)
    obtain ⟨mn, hall, _⟩ := get_list_next_n_spec temp htemp cs.length cs
      { m with iters := store m.iters temp ⟨c0.1⟩ } hpos hcells (le_refl _)
    rw [List.take_length] at hall
    have hsuf : Cells mk.nodes (c :: cs.drop (k + 1)) := by
      rw [hnodes, ← hdrop]
      exact cells_append_right m.nodes (cs.take k) (cs.drop k) (by rw [List.take_append_drop]; exact hcells)
    rw [hdrop] at hit
    have hstep := get_list_next_step mk temp c (cs.drop (k + 1)) htemp hit hsuf
    exact ⟨_, mk, _, mn, hinit, hrun, hstep, store_same _ _ _, hall⟩

/-- C6, instance: on the list `100, 200, 100` the second call returns `200` and the three
calls return `100, 200, 100`. -/
theorem C6_iteration_in_order_witness :
    ∃ m1 mk mk2 mn, _util_init_list_iterator exMem 1 50 = .ok (50, m1) ∧
      get_list_next_n 50 1 m1 = .ok (values (exCells.take 1), mk) ∧
      _util_get_list_next mk 50 = .ok (200, mk2) ∧
      mk2.iters 50 = some ⟨headAddr (exCells.drop (1 + 1))⟩ ∧
      get_list_next_n 50 exCells.length m1 = .ok (values exCells, mn) :=
  C6_iteration_in_order exMem 1 50 exCells 1 (20, 200) exMem_wf (by decide) rfl

/-- C7: on a well-formed list, `_util_init_list_iterator` returns `NULL` when the list has
no element; when the allocation succeeds and the list is not empty it returns the iterator,
whose `node_ptr` is `start`, the first node; and with a successful allocation `NULL` is
returned only for the empty list. -/
theorem C7_init_list_iterator (m : Mem) (l_ptr temp : Ptr) (cs : List (Ptr × Ptr))
    (hwf : WF m l_ptr cs) :
    (cs = [] → _util_init_list_iterator m l_ptr temp = .ok (0, m)) ∧
    (cs ≠ [] → temp ≠ 0 → ∃ m1 l it, _util_init_list_iterator m l_ptr temp = .ok (temp, m1) ∧
      m.lists l_ptr = some l ∧ m1.iters temp = some it ∧ it.node_ptr = l.start ∧
      l.start = headAddr cs ∧ l.start ≠ 0) ∧
    (temp ≠ 0 → ∀ m1, _util_init_list_iterator m l_ptr temp = .ok (0, m1) → cs = []) := by
  refine ⟨?_, ?_, ?_⟩
  · rintro rfl
    exact init_list_iterator_empty m l_ptr temp hwf
  · intro hne htemp
    cases cs with
    | nil => exact absurd rfl hne
    | cons c cs =>
      obtain ⟨_, l, hlist, hstart, hcells, _, _⟩ := id hwf
      refine ⟨_, l, ⟨c.1⟩, init_list_iterator_ok m l_ptr temp c cs hwf htemp, hlist,
        store_same _ _ _, hstart.symm, hstart, ?_⟩
      rw [hstart]; exact hcells.1
  · intro htemp m1 h
    cases cs with
    | nil => rfl
    | cons c cs =>
      rw [init_list_iterator_ok m l_ptr temp c cs hwf htemp] at h
      simp only [Except.ok.injEq, Prod.mk.injEq] at h
      exact absurd h.1 htemp

/-- C7, instance: the iterator on the list of `exMem` starts at its first node, `10`. -/
theorem C7_init_list_iterator_witness :
    ∃ m1 l it, _util_init_list_iterator exMem 1 50 = .ok (50, m1) ∧
      exMem.lists 1 = some l ∧ m1.iters 50 = some it ∧ it.node_ptr = l.start ∧
      l.start = headAddr exCells ∧ l.start ≠ 0 :=
  (C7_init_list_iterator exMem 1 50 exCells exMem_wf).2.1 (by decide) (by decide)

/-- C8: on a well-formed list with `n >= 1` cells and a fresh iterator, any `k <= n`
successive `_util_get_list_next` calls return without a fault; after exactly `n` calls the
`node_ptr` of the iterator is `NULL`; and one further call dereferences that `NULL`
pointer. -/
theorem C8_next_past_end_faults (m : Mem) (l_ptr temp : Ptr) (cs : List (Ptr × Ptr))
    (hwf : WF m l_ptr cs) (hne : cs ≠ []) (htemp : temp ≠ 0) :
    ∃ m1 mn, _util_init_list_iterator m l_ptr temp = .ok (temp, m1) ∧
      (∀ k, k ≤ cs.length → ∃ vs mk, get_list_next_n temp k m1 = .ok (vs, mk)) ∧
      get_list_next_n temp cs.length m1 = .ok (values cs, mn) ∧
      mn.iters temp = some ⟨0⟩ ∧
      _util_get_list_next mn temp = .error .nullDeref := by
  cases hcs : cs with
  | nil => exact absurd hcs hne
  | cons c0 cs0 =>
    rw [← hcs]
    have hcells : Cells m.nodes cs := hwf.2.choose_spec.2.2.1
    have hinit := init_list_iterator_ok m l_ptr temp c0 cs0 (hcs ▸ hwf) htemp
    have hpos : (store m.iters temp (⟨c0.1⟩ : slist_iterator)) temp = some ⟨headAddr cs⟩ := by
      rw [hcs]; exact store_same _ _ _
    obtain ⟨mn, hall, _, _, hit, _⟩ := get_list_next_n_spec temp htemp cs.length cs
      { m with iters := store m.iters temp ⟨c0.1⟩ } hpos hcells (le_refl _)
    rw [List.take_length] at hall
    rw [List.drop_length] at hit
    refine ⟨_, mn, hinit, ?_, hall, hit, ?_⟩
    · intro k hk
      obtain ⟨mk, hrun, _⟩ := get_list_next_n_spec temp htemp k cs
        { m with iters := store m.iters temp ⟨c0.1⟩ } hpos hcells hk
      exact ⟨_, mk, hrun⟩
    · simp [_util_get_list_next, htemp, load, hit, headAddr, bind, Except.bind]

/-- C8, instance: on the three-node list the fourth call dereferences `NULL`. -/
theorem C8_next_past_end_faults_witness :
    ∃ m1 mn, _util_init_list_iterator exMem 1 50 = .ok (50, m1) ∧
      (∀ k, k ≤ exCells.length → ∃ vs mk, get_list_next_n 50 k m1 = .ok (vs, mk)) ∧
      get_list_next_n 50 exCells.length m1 = .ok (values exCells, mn) ∧
      mn.iters 50 = some ⟨0⟩ ∧
      _util_get_list_next mn 50 = .error .nullDeref :=
  C8_next_past_end_faults exMem 1 50 exCells exMem_wf (by decide) (by decide)

/-- C9: iteration does not write to the container. On a well-formed list,
`_util_init_list_iterator` (whatever the allocation gives) and any `k` in-bounds
`_util_get_list_next` calls leave every list header and every node as they were and change
no iterator other than the one iterated; a second fresh iterator made afterwards starts at
the first cell again and yields the same sequence of values. -/
theorem C9_iteration_frame (m : Mem) (l_ptr temp temp2 : Ptr) (cs : List (Ptr × Ptr))
    (k : Nat) (hwf : WF m l_ptr cs) (hne : cs ≠ []) (htemp : temp ≠ 0) (htemp2 : temp2 ≠ 0)
    (hk : k ≤ cs.length) :
    (∀ t, ∃ r m1, _util_init_list_iterator m l_ptr t = .ok (r, m1) ∧
      m1.lists = m.lists ∧ m1.nodes = m.nodes) ∧
    ∃ m1 mk m3 mn, _util_init_list_iterator m l_ptr temp = .ok (temp, m1) ∧
      get_list_next_n temp k m1 = .ok (values (cs.take k), mk) ∧
      mk.lists = m.lists ∧ mk.nodes = m.nodes ∧ (∀ j, j ≠ temp → mk.iters j = m.iters j) ∧
      WF mk l_ptr cs ∧
      _util_init_list_iterator mk l_ptr temp2 = .ok (temp2, m3) ∧
      m3.iters temp2 = some ⟨headAddr cs⟩ ∧
      get_list_next_n temp2 cs.length m3 = .ok (values cs, mn) ∧
      mn.lists = m.lists ∧ mn.nodes = m.nodes := by
  cases hcs : cs with
  | nil => exact absurd hcs hne
  | cons c0 cs0 =>
    rw [← hcs]
    have hwf0 : WF m l_ptr (c0 :: cs0) := hcs ▸ hwf
    have hcells : Cells m.nodes cs := hwf.2.choose_spec.2.2.1
    have hinit := init_list_iterator_ok m l_ptr temp c0 cs0 hwf0 htemp
    constructor
    · intro t
      by_cases ht : t = 0
      · obtain ⟨hl, l, hlist, hstart, hc, _, _⟩ := hwf0
        have hs2 : l.start = c0.1 := hstart
        exact ⟨0, m, by simp [_util_init_list_iterator, hl, load, hlist, hs2, hc.1, ht, bind,
          Except.bind], rfl, rfl⟩
      · exact ⟨t, _, init_list_iterator_ok m l_ptr t c0 cs0 hwf0 ht, rfl, rfl⟩
    · have hpos : (store m.iters temp (⟨c0.1⟩ : slist_iterator)) temp = some ⟨headAddr cs⟩ := by
        rw [hcs]; exact store_same _ _ _
      obtain ⟨mk, hrun, hlists, hnodes, _, hothers⟩ := get_list_next_n_spec temp htemp k cs
        { m with iters := store m.iters temp ⟨c0.1⟩ } hpos hcells hk
      have hlists2 : mk.lists = m.lists := hlists
      have hnodes2 : mk.nodes = m.nodes := hnodes
      have hwfk : WF mk l_ptr cs := by
        obtain ⟨hl, l, hlist, hrest⟩ := hwf
        exact ⟨hl, l, by rw [hlists2]; exact hlist, by rw [hnodes2]; exact hrest⟩
      have hinit2 := init_list_iterator_ok mk l_ptr temp2 c0 cs0 (hcs ▸ hwfk) htemp2
      have hpos2 : (store mk.iters temp2 (⟨c0.1⟩ : slist_iterator)) temp2 =
          some ⟨headAddr cs⟩ := by
        rw [hcs]; exact store_same _ _ _
      have hcellsk : Cells mk.nodes cs := by rw [hnodes2]; exact hcells
      obtain ⟨mn, hall, hl3, hn3, _⟩ := get_list_next_n_spec temp2 htemp2 cs.length cs
        { mk with iters := store mk.iters temp2 ⟨c0.1⟩ } hpos2 hcellsk (le_refl _)
      rw [List.take_length] at hall
      refine ⟨_, mk, _, mn, hinit, hrun, hlists2, hnodes2, ?_, hwfk, hinit2, hpos2, hall,
        hl3.trans hlists2, hn3.trans hnodes2⟩
      intro j hj
      rw [hothers j hj]; exact store_other _ _ _ _ hj

/-- C9, instance: two calls on the list of `exMem`, then a second iterator at `60`. -/
theorem C9_iteration_frame_witness :
    ∃ m1 mk m3 mn, _util_init_list_iterator exMem 1 50 = .ok (50, m1) ∧
      get_list_next_n 50 2 m1 = .ok (values (exCells.take 2), mk) ∧
      mk.lists = exMem.lists ∧ mk.nodes = exMem.nodes ∧
      (∀ j, j ≠ 50 → mk.iters j = exMem.iters j) ∧
      WF mk 1 exCells ∧
      _util_init_list_iterator mk 1 60 = .ok (60, m3) ∧
      m3.iters 60 = some ⟨headAddr exCells⟩ ∧
      get_list_next_n 60 exCells.length m3 = .ok (values exCells, mn) ∧
      mn.lists = exMem.lists ∧ mn.nodes = exMem.nodes :=
  (C9_iteration_frame exMem 1 50 60 exCells 2 exMem_wf (by decide) (by decide) (by decide)
    (by decide)).2

theorem cells_agree (n1 n2 : Ptr → Option slist_node_t) :
    ∀ (cs : List (Ptr × Ptr)), Cells n1 cs → Cells n2 cs → ∀ a ∈ addrs cs, n1 a = n2 a
  | [], _, _, a, h => by simp [addrs] at h
  | c :: cs, h1, h2, a, h => by
    simp only [addrs, List.map_cons, List.mem_cons] at h
    rcases h with rfl | h
    · rw [h1.2.1, h2.2.1]
    · exact cells_agree n1 n2 cs h1.2.2 h2.2.2 a h

/-- A successful `_util_add_node` writes only the new node and the former last node. -/
theorem add_node_frame (m : Mem) (l_ptr data node : Ptr) (cs : List (Ptr × Ptr))
    (hwf : WF m l_ptr cs) (hnode : node ≠ 0) (hfresh : m.nodes node = none) :
    ∃ m2, _util_add_node m l_ptr data node = .ok (true, m2) ∧
      ∀ a, a ≠ node → a ∉ addrs cs → m2.nodes a = m.nodes a := by
  rcases eq_nil_or_snoc cs with rfl | ⟨xs, q, rfl⟩
  · obtain ⟨hl, l, hlist, hstart, _, _, _⟩ := hwf
    have hs : l.start = 0 := hstart
    simp [_util_add_node, hl, hnode, load, hlist, bind, Except.bind, hs]
    intro a ha _
    exact store_other _ _ _ _ ha
  · obtain ⟨m2, hadd, _, _, _, hfr⟩ := add_node_wf m l_ptr data node _ hwf hnode hfresh
    refine ⟨m2, hadd, ?_⟩
    intro a ha hnot
    refine hfr a ha ?_
    rw [lastAddr_concat]
    intro h
    apply hnot
    simp [addrs, h]

/-- C13: on a well-formed list whose head cell `d` stores the non-`NULL` value `v`,
`_util_delete_node` with `v` returns the head node and rewrites no node; `start` becomes the
address of the former second cell and `nnodes` drops by one; with two or more cells `end` is
unchanged; with exactly one cell the header becomes `start = NULL`, `end = NULL`,
`nnodes = 0`, which is the header `_util_init_list` writes. -/
theorem C13_delete_head (m : Mem) (l_ptr v : Ptr) (d : Ptr × Ptr) (post : List (Ptr × Ptr))
    (fuel : Nat) (hwf : WF m l_ptr (d :: post)) (hv : v ≠ 0) (hd : d.2 = v) :
    ∃ m2 l l2, _util_delete_node fuel m l_ptr v = .ok (d.1, m2) ∧
      m.lists l_ptr = some l ∧ m2.lists l_ptr = some l2 ∧ m2.nodes = m.nodes ∧
      l.start = d.1 ∧ l2.start = headAddr post ∧ l2.nnodes = l.nnodes - 1 ∧
      (post ≠ [] → l2.start ≠ 0 ∧ l2.end_ = l.end_) ∧
      (post = [] → l2 = ⟨0, 0, 0⟩ ∧
        ∃ mi, _util_init_list m l_ptr = .ok mi ∧ mi.lists l_ptr = m2.lists l_ptr) := by
  obtain ⟨m2, hdel, hwf2, _, _, hnodes⟩ :=
    delete_node_found fuel m l_ptr v [] d post hwf hv (by simp) hd (Nat.zero_le _)
  obtain ⟨hl, l, hlist, hstart, hcells, hend, hn⟩ := hwf
  obtain ⟨_, l2, hlist2, hstart2, hcells2, hend2, hn2⟩ := hwf2
  simp only [List.nil_append] at hstart2 hcells2 hend2 hn2
  refine ⟨m2, l, l2, hdel, hlist, hlist2, ?_, hstart, hstart2, ?_, ?_, ?_⟩
  · funext a; exact hnodes a (by simp [addrs])
  · rw [hn, hn2]; simp
  · intro hne
    cases post with
    | nil => exact absurd rfl hne
    | cons e post =>
      refine ⟨?_, ?_⟩
      · rw [hstart2]; exact hcells2.1
      · rw [hend, hend2]; rfl
  · rintro rfl
    have hl2 : l2 = ⟨0, 0, 0⟩ := by
      cases l2
      simp only [headAddr, lastAddr, List.length_nil, Nat.cast_zero] at hstart2 hend2 hn2
      simp [hstart2, hend2, hn2]
    refine ⟨hl2, { m with lists := store m.lists l_ptr ⟨0, 0, 0⟩ }, ?_, ?_⟩
    · simp [_util_init_list, hl, load, hlist, bind, Except.bind]
    · rw [hlist2, hl2]; exact store_same _ _ _

/-- C13, instance: deleting the head value `100` from the list `100, 200, 100` of `exMem`
and from the one-element list `100` of `exOne`. -/
theorem C13_delete_head_witness :
    (∃ m2 l l2, _util_delete_node 0 exMem 1 100 = .ok (10, m2) ∧
      exMem.lists 1 = some l ∧ m2.lists 1 = some l2 ∧ m2.nodes = exMem.nodes ∧
      l.start = 10 ∧ l2.start = 20 ∧ l2.nnodes = l.nnodes - 1 ∧
      l2.start ≠ 0 ∧ l2.end_ = l.end_) ∧
    (∃ m2 l l2, _util_delete_node 0 exOne 1 100 = .ok (10, m2) ∧
      exOne.lists 1 = some l ∧ m2.lists 1 = some l2 ∧ m2.nodes = exOne.nodes ∧
      l2 = ⟨0, 0, 0⟩ ∧ ∃ mi, _util_init_list exOne 1 = .ok mi ∧ mi.lists 1 = m2.lists 1) := by
  obtain ⟨m2, l, l2, h1, h2, h3, h4, h5, h6, h7, h8, _⟩ :=
    C13_delete_head exMem 1 100 (10, 100) [(20, 200), (30, 100)] 0 exMem_wf (by decide) rfl
  obtain ⟨n2, k, k2, g1, g2, g3, g4, _, _, _, _, g9⟩ :=
    C13_delete_head exOne 1 100 (10, 100) [] 0 exOne_wf (by decide) rfl
  exact ⟨⟨m2, l, l2, h1, h2, h3, h4, h5, h6, h7, h8 (by decide)⟩,
    ⟨n2, k, k2, g1, g2, g3, g4, g9 rfl⟩⟩

/-- C14: on a well-formed list with cells `cs` and for a non-`NULL` value `v` stored in none
of its nodes, a successful `_util_add_node` of `v` followed by `_util_delete_node` of `v`
returns the node just added and restores the list: the list headers, every node other than
the added one (so the former last node has a `NULL` link again) and the iterators are as
before, and the list is well formed with the same cells `cs`. -/
theorem C14_add_delete_round_trip (m : Mem) (l_ptr v node : Ptr) (cs : List (Ptr × Ptr))
    (fuel : Nat) (hwf : WF m l_ptr cs) (hv : v ≠ 0) (habs : v ∉ values cs)
    (hnode : node ≠ 0) (hfresh : m.nodes node = none) (hfuel : cs.length ≤ fuel) :
    ∃ m1 m2, _util_add_node m l_ptr v node = .ok (true, m1) ∧
      _util_delete_node fuel m1 l_ptr v = .ok (node, m2) ∧
      m2.nodes node = some ⟨v, 0⟩ ∧ WF m2 l_ptr cs ∧ m2.lists = m.lists ∧
      (∀ a, a ≠ node → m2.nodes a = m.nodes a) ∧ m2.iters = m.iters := by
  obtain ⟨m1, hadd, hwf1, hit1, hl1, _⟩ := add_node_wf m l_ptr v node cs hwf hnode hfresh
  obtain ⟨m1b, haddb, hfr1⟩ := add_node_frame m l_ptr v node cs hwf hnode hfresh
  have hsame : m1b = m1 := by
    rw [hadd] at haddb
    simp only [Except.ok.injEq, Prod.mk.injEq, true_and] at haddb
    exact haddb.symm
  subst hsame
  have hpre : ∀ x ∈ cs, x.2 ≠ v := fun x hx h => habs (List.mem_map.2 ⟨x, hx, h⟩)
  obtain ⟨m2, hdel, hwf2, hit2, hl2, hfr2⟩ :=
    delete_node_found fuel m1b l_ptr v cs (node, v) [] hwf1 hv hpre rfl hfuel
  rw [List.append_nil] at hwf2
  have hnotin : node ∉ addrs cs := by
    intro h
    obtain ⟨c, hc, hca⟩ := List.mem_map.1 h
    obtain ⟨pre, post, hsplit⟩ := List.append_of_mem hc
    have hcells : Cells m.nodes (pre ++ c :: post) := hsplit ▸ hwf.2.choose_spec.2.2.1
    have := (cells_append_right _ _ _ hcells).2.1
    rw [hca, hfresh] at this
    simp at this
  have hcells1 : Cells m1b.nodes (cs ++ [(node, v)]) := hwf1.2.choose_spec.2.2.1
  refine ⟨m1b, m2, hadd, hdel, ?_, hwf2, ?_, ?_, hit2.trans hit1⟩
  · rw [hfr2 node hnotin]
    exact (cells_append_right _ _ _ hcells1).2.1
  · funext p
    by_cases hp : p = l_ptr
    · subst hp
      obtain ⟨_, l, hlist, hstart, _, hend, hn⟩ := hwf
      obtain ⟨_, l2, hlist2, hstart2, _, hend2, hn2⟩ := hwf2
      rw [hlist, hlist2]
      cases l; cases l2
      simp_all
    · rw [hl2 p hp, hl1 p hp]
  · intro a ha
    by_cases hmem : a ∈ addrs cs
    · exact cells_agree _ _ cs hwf2.2.choose_spec.2.2.1 hwf.2.choose_spec.2.2.1 a hmem
    · rw [hfr2 a hmem, hfr1 a ha hmem]

/-- C14, instance: appending `300` in a node at `40` to the list of `exMem` and deleting
`300` again. -/
theorem C14_add_delete_round_trip_witness :
    ∃ m1 m2, _util_add_node exMem 1 300 40 = .ok (true, m1) ∧
      _util_delete_node 3 m1 1 300 = .ok (40, m2) ∧
      m2.nodes 40 = some ⟨300, 0⟩ ∧ WF m2 1 exCells ∧ m2.lists = exMem.lists ∧
      (∀ a, a ≠ 40 → m2.nodes a = exMem.nodes a) ∧ m2.iters = exMem.iters :=
  C14_add_delete_round_trip exMem 1 300 40 exCells 3 exMem_wf (by decide) (by decide)
    (by decide) rfl (by decide)

/-- C15: `_util_delete_node` with `data == NULL` returns `NULL` and leaves the memory as it
was, for every memory and list pointer; `_util_add_node` does append `NULL` to a
well-formed list, which then stores the value `NULL`, and `_util_delete_node` with `NULL`
still returns `NULL` and changes nothing, whatever the fuel. -/
theorem C15_delete_null (m : Mem) (l_ptr node : Ptr) (cs : List (Ptr × Ptr))
    (hwf : WF m l_ptr cs) (hnode : node ≠ 0) (hfresh : m.nodes node = none) :
    (∀ (fuel : Nat) (m0 : Mem) (lp : Ptr), _util_delete_node fuel m0 lp 0 = .ok (0, m0)) ∧
    ∃ m2, _util_add_node m l_ptr 0 node = .ok (true, m2) ∧
      WF m2 l_ptr (cs ++ [(node, 0)]) ∧ (0 : Ptr) ∈ values (cs ++ [(node, 0)]) ∧
      ∀ (fuel : Nat), _util_delete_node fuel m2 l_ptr 0 = .ok (0, m2) := by
  have hnull : ∀ (fuel : Nat) (m0 : Mem) (lp : Ptr),
      _util_delete_node fuel m0 lp 0 = .ok (0, m0) := by
    intro fuel m0 lp
    simp [_util_delete_node]
  obtain ⟨m2, hadd, hwf2, _⟩ := add_node_wf m l_ptr 0 node cs hwf hnode hfresh
  exact ⟨hnull, m2, hadd, hwf2, by simp [values], fun fuel => hnull fuel m2 l_ptr⟩

/-- C15, instance: `NULL` appended to the list of `exMem` in a node at `40` stays there. -/
theorem C15_delete_null_witness :
    ∃ m2, _util_add_node exMem 1 0 40 = .ok (true, m2) ∧
      WF m2 1 (exCells ++ [(40, 0)]) ∧ (0 : Ptr) ∈ values (exCells ++ [(40, 0)]) ∧
      ∀ (fuel : Nat), _util_delete_node fuel m2 1 0 = .ok (0, m2) :=
  (C15_delete_null exMem 1 40 exCells exMem_wf (by decide) rfl).2

end MtpList

namespace MtpDevice

theorem pack16s_length : ∀ (xs : List Nat), (pack16s xs).length = 2 * xs.length
  | [] => rfl
  | x :: xs => by
    simp only [pack16s, List.length_append, pack16s_length xs, pack16, List.length_cons,
      List.length_nil]
    omega

theorem pack_string_length (s : ptp_string_t) : (pack_string s).length = string_size s := by
  unfold pack_string string_size
  split
  · rfl
  · simp only [List.length_cons, pack16s_length, List.length_append, List.length_nil]
    omega

theorem pack_array_length (a : List Nat) : (pack_array a).length = array_size a := by
  have h := pack16s_length a
  simp only [pack_array, array_size, pack32, List.length_append, List.length_cons,
    List.length_nil]
  omega

theorem dataset_length (info : device_info_t) :
    (dataset info).length = _get_device_info_size info := by
  simp only [dataset, _get_device_info_size, List.length_append, pack_string_length,
    pack_array_length, pack16, pack32, List.length_cons, List.length_nil]

theorem device_info_size_pos (info : device_info_t) : 0 < _get_device_info_size info := by
  unfold _get_device_info_size
  omega

/-- C10: `_pack_device_info` with `buf_sz` equal to `_get_device_info_size()` on a buffer
of at least that many bytes succeeds: it returns that size, the buffer then starts with the
dataset, which is exactly that many bytes long, and the rest of the buffer is untouched;
with `buf_sz` one less it fails (returns `0`) and the buffer is unchanged. -/
theorem C10_pack_device_info (info : device_info_t) (buf buf2 : List Nat)
    (hbuf : _get_device_info_size info ≤ buf.length) :
    (∃ out, _pack_device_info info buf (_get_device_info_size info) =
        (_get_device_info_size info, out) ∧
      out.length = buf.length ∧
      out.take (_get_device_info_size info) = dataset info ∧
      out.drop (_get_device_info_size info) = buf.drop (_get_device_info_size info) ∧
      (dataset info).length = _get_device_info_size info) ∧
    _pack_device_info info buf2 (_get_device_info_size info - 1) = (0, buf2) := by
  have hlen := dataset_length info
  have hpos := device_info_size_pos info
  constructor
  · refine ⟨dataset info ++ buf.drop (dataset info).length, ?_, ?_, ?_, ?_, hlen⟩
    · simp [_pack_device_info, hlen]
    · simp only [List.length_append, List.length_drop, hlen]; omega
    · rw [← hlen]; simp
    · rw [← hlen]; simp
  · have : _get_device_info_size info - 1 < _get_device_info_size info := by omega
    simp [_pack_device_info, this]

/-- C10, instance: the descriptor `exInfo` needs 65 bytes; packing into 65 bytes succeeds
and packing with capacity 64 fails. -/
theorem C10_pack_device_info_witness :
    (∃ out, _pack_device_info exInfo (List.replicate 65 0) (_get_device_info_size exInfo) =
        (_get_device_info_size exInfo, out) ∧
      out.length = (List.replicate 65 0).length ∧
      out.take (_get_device_info_size exInfo) = dataset exInfo ∧
      out.drop (_get_device_info_size exInfo) =
        (List.replicate 65 0).drop (_get_device_info_size exInfo) ∧
      (dataset exInfo).length = _get_device_info_size exInfo) ∧
    _pack_device_info exInfo (List.replicate 64 255) (_get_device_info_size exInfo - 1) =
      (0, List.replicate 64 255) :=
  C10_pack_device_info exInfo (List.replicate 65 0) (List.replicate 64 255) (by decide)


theorem mounted_count_le (d : mtp_device_t) : mounted_count d ≤ MAX_NUM_DEVICE_STORES := by
  unfold mounted_count
  calc ((List.finRange MAX_NUM_DEVICE_STORES).filter (fun i => d.is_mounted i)).length
      ≤ (List.finRange MAX_NUM_DEVICE_STORES).length := List.length_filter_le _ _
    _ = MAX_NUM_DEVICE_STORES := List.length_finRange _

theorem free_slot_none (d : mtp_device_t) (hfull : ∀ i, d.is_mounted i = true) :
    free_slot d = none := by
  unfold free_slot
  rw [List.find?_eq_none]
  intro i _
  simp [hfull i]

theorem free_slot_some (d : mtp_device_t) (i : Fin MAX_NUM_DEVICE_STORES)
    (h : free_slot d = some i) : d.is_mounted i = false := by
  unfold free_slot at h
  have := List.find?_some h
  simpa using this

/-- Setting one clear flag of a duplicate-free list of slots adds one to the count of set
flags. -/
theorem filter_set_flag {n : Nat} (f : Fin n → Bool) (i : Fin n) (hi : f i = false) :
    ∀ (L : List (Fin n)), L.Nodup → i ∈ L →
      (L.filter (fun j => if j = i then true else f j)).length = (L.filter f).length + 1
  | [], _, h => by simp at h
  | x :: xs, hnd, hmem => by
    rw [List.nodup_cons] at hnd
    by_cases hx : x = i
    · subst hx
      have hrest : xs.filter (fun j => if j = x then true else f j) = xs.filter f := by
        apply List.filter_congr
        intro j hj
        have : j ≠ x := fun h => hnd.1 (h ▸ hj)
        simp [this]
      have hrest2 := congrArg List.length hrest
      simp only [List.filter_cons, if_true, hi, List.length_cons, hrest2]
      simp
    · have hmem2 : i ∈ xs := by
        rcases List.mem_cons.1 hmem with h | h
        · exact absurd h.symm hx
        · exact h
      have ih := filter_set_flag f i hi xs hnd.2 hmem2
      by_cases hfx : f x = true
      · simp only [List.filter_cons, if_neg hx, hfx, if_true, List.length_cons, ih]
      · simp only [List.filter_cons, if_neg hx, hfx, if_false]
        simpa using ih

/-- Every `_device_install_storage` call keeps the store bookkeeping consistent. -/
theorem install_storage_consistent (d : mtp_device_t) (vol : Option mtp_store_t) (id : Nat)
    (h : StoresConsistent d) : StoresConsistent (_device_install_storage d vol id).2 := by
  unfold _device_install_storage
  cases hfree : free_slot d with
  | none => exact h
  | some i =>
    cases vol with
    | none => exact h
    | some st =>
      have hi := free_slot_some d i hfree
      have hcount : mounted_count
          { d with
            store_list := d.store_list ++ [{ st with store_id := id }]
            num_stores := (d.num_stores + 1) % 256
            default_store_id := if d.store_list = [] then id else d.default_store_id
            default_hparent := if d.store_list = [] then st.root_parent else d.default_hparent
            is_mounted := fun j => if j = i then true else d.is_mounted j } =
          mounted_count d + 1 := by
        unfold mounted_count
        exact filter_set_flag d.is_mounted i hi _ (List.nodup_finRange _) (List.mem_finRange i)
      have hle := mounted_count_le
          { d with
            store_list := d.store_list ++ [{ st with store_id := id }]
            num_stores := (d.num_stores + 1) % 256
            default_store_id := if d.store_list = [] then id else d.default_store_id
            default_hparent := if d.store_list = [] then st.root_parent else d.default_hparent
            is_mounted := fun j => if j = i then true else d.is_mounted j }
      rw [hcount] at hle
      obtain ⟨h1, h2⟩ := h
      have hmax : MAX_NUM_DEVICE_STORES = 1 := rfl
      refine ⟨?_, ?_⟩
      · show (d.num_stores + 1) % 256 = (d.store_list ++ [{ st with store_id := id }]).length
        rw [List.length_append, List.length_singleton, h1, Nat.mod_eq_of_lt]
        omega
      · show (d.store_list ++ [{ st with store_id := id }]).length = _
        rw [hcount, List.length_append, List.length_singleton, h2]

/-- C11: whatever the prior device state (a device in `DEVICE_DEVICEERROR` and
`DEVICE_PHASE_NOTREADY` included), `_reset_mtp_device` leaves the phase
`DEVICE_PHASE_IDLE`, the status `DEVICE_STATUSOK`, an empty store list, and the device-info
descriptor that is built from the static configuration, whatever descriptor was there. -/
theorem C11_reset_mtp_device (cfg : static_config) (d : mtp_device_t) :
    (_reset_mtp_device cfg d).phase = .DEVICE_PHASE_IDLE ∧
    (_reset_mtp_device cfg d).status = .DEVICE_STATUSOK ∧
    (_reset_mtp_device cfg d).store_list = [] ∧
    (_reset_mtp_device cfg d).device_info = init_device_info cfg ∧
    (_reset_mtp_device cfg
      { d with status := .DEVICE_DEVICEERROR, phase := .DEVICE_PHASE_NOTREADY }).phase =
        .DEVICE_PHASE_IDLE ∧
    (_reset_mtp_device cfg
      { d with status := .DEVICE_DEVICEERROR, phase := .DEVICE_PHASE_NOTREADY }).status =
        .DEVICE_STATUSOK ∧
    StoresConsistent (_reset_mtp_device cfg d) :=
  ⟨rfl, rfl, rfl, rfl, rfl, rfl, rfl, by simp [mounted_count, _reset_mtp_device]⟩

/-- C12: when every store slot is occupied (every mount flag is set),
`_device_install_storage` returns `FALSE` and the device state, with its store list,
`num_stores`, default store id and mount flags, is the one before the call; and on any
device whose store bookkeeping is consistent a call, successful or not, leaves it consistent
with at most `MAX_NUM_DEVICE_STORES` stores attached. -/
theorem C12_install_storage_full (d : mtp_device_t) (vol : Option mtp_store_t) (id : Nat)
    (hfull : ∀ i, d.is_mounted i = true) :
    _device_install_storage d vol id = (false, d) ∧
    ∀ (d2 : mtp_device_t) (vol2 : Option mtp_store_t) (id2 : Nat), StoresConsistent d2 →
      StoresConsistent (_device_install_storage d2 vol2 id2).2 ∧
      (_device_install_storage d2 vol2 id2).2.store_list.length ≤ MAX_NUM_DEVICE_STORES ∧
      (_device_install_storage d2 vol2 id2).2.num_stores ≤ MAX_NUM_DEVICE_STORES := by
  refine ⟨?_, ?_⟩
  · simp [_device_install_storage, free_slot_none d hfull]
  · intro d2 vol2 id2 h2
    have hc := install_storage_consistent d2 vol2 id2 h2
    have hle := mounted_count_le (_device_install_storage d2 vol2 id2).2
    have h3 := hc.1
    have h4 := hc.2
    exact ⟨hc, by omega, by omega⟩

/-- C12, instance: the device `exDevice` has its one slot occupied; installing the store
`65538` fails and changes nothing. -/
theorem C12_install_storage_full_witness :
    _device_install_storage exDevice (some ⟨0, 0⟩) 65538 = (false, exDevice) :=
  (C12_install_storage_full exDevice (some ⟨0, 0⟩) 65538 (fun _ => rfl)).1

end MtpDevice
